import Mathlib

/-!
Verification of the neuromosaic architecture-search core against its
natural-language specification.  The definitions below are a shallow
embedding of the Python sources:

* `src/neuromosaic/arch_space/vector_representation.py`
  (`ArchitectureVector.encode`, `decode`, `crossover`)
* `src/neuromosaic/orchestrator/orchestrator.py`
  (`Orchestrator.submit_results`, `run_cycle`, `run_batch`,
   `schedule_experiment`, `_run_experiment`, `get_experiment_status`)
* `src/orchestrator/strategies/random_strategy.py` and
  `src/neuromosaic/orchestrator/strategies/bayesopt_strategy.py`
  (`get_best_architectures`, `BayesianOptimization.suggest_architecture`)

Python floats are modelled as exact rationals (`ℚ`), Python ints carry an
`isInt` flag so that the `isinstance(..., int)` checks of `decode` can be
expressed, dicts are modelled as ordered association lists (Python dicts
iterate in insertion order and have unique keys), and raising code is
modelled with `Except`.  External collaborators (code generator, container
manager, results store, version control) are modelled by their outcomes,
passed in as explicit parameters.
-/

deriving instance DecidableEq for Except

namespace Neuromosaic

/-- Python numeric value: the rational payload together with whether the
Python object is an `int` (used by `decode`, which rounds a continuous
parameter exactly when both of its declared bounds are ints). -/
structure PyNum where
  val : ℚ
  isInt : Bool
deriving DecidableEq, Repr

/-- A value of a Python architecture-spec dict: a number or a string. -/
inductive SpecVal
  | num (n : PyNum)
  | str (s : String)
deriving DecidableEq, Repr

/-- An architecture specification: the `arch_spec` dict passed to
`ArchitectureVector.encode`, as an ordered association list. -/
abbrev Spec := List (String × SpecVal)

/-- Declared continuous bounds: `self.bounds`, an ordered map from parameter
name to the inclusive `(min, max)` pair. -/
abbrev Bounds := List (String × PyNum × PyNum)

/-- Declared categorical choices: `self.categorical_dims`, an ordered map
from parameter name to the list of valid string choices. -/
abbrev CatDims := List (String × List String)

/-- Errors raised by `ArchitectureVector.encode`:
`outOfBounds` and `invalidChoice` are the two `ValueError`s of the source,
`typeError` is Python's `TypeError` for a non-numeric value compared against
numeric bounds, `zeroDivision` is Python's `ZeroDivisionError` when the two
bounds coincide, `indexError` is Python's `IndexError` for `choices[0]` on an
empty choice list. -/
inductive EncodeError
  | outOfBounds (param : String)
  | invalidChoice (param : String)
  | typeError (param : String)
  | zeroDivision (param : String)
  | indexError (param : String)
deriving DecidableEq, Repr

/-- Errors raised by `ArchitectureVector.decode` and by the repair pass of
`crossover`: `np.argmax` of an empty block raises `ValueError`, and
`choices[choice_idx]` would raise `IndexError` if out of range. -/
inductive DecodeError
  | emptyArgmax
  | indexErrorChoices
deriving DecidableEq, Repr

/-- Sequential effectful map over a list, stopping at the first error: the
shape of the Python `for` loops of `encode`, which raise out of the loop. -/
def exceptMap {α β ε : Type} (f : α → Except ε β) : List α → Except ε (List β)
  | [] => .ok []
  | a :: l =>
    match f a with
    | .error e => .error e
    | .ok b =>
      match exceptMap f l with
      | .error e => .error e
      | .ok bs => .ok (b :: bs)

/-- One-hot vector of length `n` with the `1.0` at index `i`
(`np.zeros(n)` followed by `one_hot[i] = 1.0`). -/
def oneHot (n i : ℕ) : List ℚ :=
  (List.replicate n (0 : ℚ)).set i 1

/-- Maximum of a list of rationals (`0` for the empty list, which the code
never queries: `np.argmax` raises on an empty array first). -/
def listMax : List ℚ → ℚ
  | [] => 0
  | [x] => x
  | x :: y :: rest => max x (listMax (y :: rest))

/-- Index of the first occurrence of the maximum: `np.argmax`. -/
def argmaxIdx : List ℚ → ℕ
  | [] => 0
  | [_] => 0
  | x :: y :: rest =>
    if listMax (y :: rest) ≤ x then 0 else argmaxIdx (y :: rest) + 1

/-- Number of strong activations of a categorical block:
`np.sum(one_hot > 0.9)` — note the comparison is strictly greater. -/
def strongCount (l : List ℚ) : ℕ :=
  (l.filter (fun x => decide ((9 : ℚ)/10 < x))).length

/-- Python 3 `round` to the nearest integer, ties to even. -/
def pyRound (q : ℚ) : ℤ :=
  if q - ⌊q⌋ < 1/2 then ⌊q⌋
  else if 1/2 < q - ⌊q⌋ then ⌊q⌋ + 1
  else if ⌊q⌋ % 2 = 0 then ⌊q⌋ else ⌊q⌋ + 1

/-- Encoding of one continuous parameter (the first loop of `encode`):
an absent value defaults to the midpoint of the bounds without a bounds
check, a present value is bounds-checked, and the result is normalized to
`(value - min) / (max - min)`. -/
def encodeContParam (spec : Spec) (param : String) (mn mx : PyNum) :
    Except EncodeError ℚ :=
  match spec.lookup param with
  | none =>
    if mx.val - mn.val = 0 then .error (.zeroDivision param)
    else .ok (((mn.val + mx.val) / 2 - mn.val) / (mx.val - mn.val))
  | some (.str _) => .error (.typeError param)
  | some (.num v) =>
    if ¬ (mn.val ≤ v.val ∧ v.val ≤ mx.val) then .error (.outOfBounds param)
    else if mx.val - mn.val = 0 then .error (.zeroDivision param)
    else .ok ((v.val - mn.val) / (mx.val - mn.val))

/-- Encoding of one categorical parameter (the second loop of `encode`):
an absent value defaults to `choices[0]`, a present value must be among the
choices (a numeric value is never `in` a list of strings, so it raises the
invalid-choice `ValueError`), and the block is the one-hot of
`choices.index(value)`. -/
def encodeCatParam (spec : Spec) (param : String) (choices : List String) :
    Except EncodeError (List ℚ) :=
  match spec.lookup param with
  | none =>
    match choices with
    | [] => .error (.indexError param)
    | c :: _ => .ok (oneHot choices.length (choices.indexOf c))
  | some (.num _) => .error (.invalidChoice param)
  | some (.str v) =>
    if v ∈ choices then .ok (oneHot choices.length (choices.indexOf v))
    else .error (.invalidChoice param)

/-- Number of slots the declared parameters require: one per continuous
parameter plus one block of `len(choices)` per categorical parameter
(`required_dims` of the constructor). -/
def requiredDims (bounds : Bounds) (cats : CatDims) : ℕ :=
  bounds.length + (cats.map (fun c => c.2.length)).sum

/-- `ArchitectureVector.encode`: zero the vector, fill one normalized slot
per continuous parameter, then one one-hot block per categorical parameter,
leaving the trailing padding at zero.  The loops run in dict order and the
first invalid parameter raises. -/
def encode (dims : ℕ) (bounds : Bounds) (cats : CatDims) (spec : Spec) :
    Except EncodeError (List ℚ) :=
  match exceptMap (fun b => encodeContParam spec b.1 b.2.1 b.2.2) bounds with
  | .error e => .error e
  | .ok conts =>
    match exceptMap (fun c => encodeCatParam spec c.1 c.2) cats with
    | .error e => .error e
    | .ok blocks =>
      .ok (conts ++ blocks.flatten ++ List.replicate (dims - requiredDims bounds cats) 0)

/-- A decoded parameter value: a (possibly rounded) number or a choice. -/
inductive DecodedVal
  | num (q : ℚ)
  | str (s : String)
deriving DecidableEq, Repr

/-- Decoding of one continuous slot: denormalize, and round exactly when
both declared bounds are Python ints. -/
def decodeContVal (x : ℚ) (mn mx : PyNum) : ℚ :=
  let value := x * (mx.val - mn.val) + mn.val
  if mn.isInt && mx.isInt then ((pyRound value : ℤ) : ℚ) else value

/-- The continuous half of `decode`: reads one slot per bounds entry, in
order, from the front of the vector. -/
def decodeConts : Bounds → List ℚ → List (String × DecodedVal)
  | [], _ => []
  | (p, mn, mx) :: rest, v =>
    (p, .num (decodeContVal (v.headD 0) mn mx)) :: decodeConts rest v.tail

/-- Decoding of one categorical block: `np.argmax` (raising on an empty
block), the ambiguity check `np.sum(one_hot > 0.9) != 1`, and on ambiguity
the deterministic fallback to index `0` plus a logged warning.  Returns the
chosen string together with whether the ambiguity warning fired. -/
def decodeCatBlock (choices : List String) (block : List ℚ) :
    Except DecodeError (String × Bool) :=
  if block.isEmpty then .error .emptyArgmax
  else
    let idx := argmaxIdx block
    let ambiguous := strongCount block ≠ 1
    let cidx := if ambiguous then 0 else idx
    match choices.get? cidx with
    | some c => .ok (c, ambiguous)
    | none => .error .indexErrorChoices

/-- The categorical half of `decode`: consumes one block of
`len(choices)` slots per parameter, in order; collects the decoded choices
and the names of the parameters whose ambiguity warning was logged. -/
def decodeCats : CatDims → List ℚ →
    Except DecodeError (List (String × DecodedVal) × List String)
  | [], _ => .ok ([], [])
  | (p, choices) :: rest, v =>
    match decodeCatBlock choices (v.take choices.length) with
    | .error e => .error e
    | .ok cb =>
      match decodeCats rest (v.drop choices.length) with
      | .error e => .error e
      | .ok tl => .ok ((p, .str cb.1) :: tl.1, if cb.2 then p :: tl.2 else tl.2)

/-- `ArchitectureVector.decode`: continuous slots first, then the
categorical blocks, mirroring the index arithmetic of the source.  Returns
the decoded spec together with the logged ambiguity warnings. -/
def decode (bounds : Bounds) (cats : CatDims) (vec : List ℚ) :
    Except DecodeError (List (String × DecodedVal) × List String) :=
  match decodeCats cats (vec.drop bounds.length) with
  | .error e => .error e
  | .ok tl => .ok (decodeConts bounds (vec.take bounds.length) ++ tl.1, tl.2)

/-- Stable insertion of a crossover point into a sorted list (used to model
Python's `sorted(crossover_points)`). -/
def insertSorted (x : ℕ) : List ℕ → List ℕ
  | [] => [x]
  | y :: ys => if x ≤ y then x :: y :: ys else y :: insertSorted x ys

/-- Python's `sorted` on the crossover points. -/
def sortPoints (l : List ℕ) : List ℕ :=
  l.foldr insertSorted []

/-- Whether index `i` lies in a swapped segment of the multi-point
crossover: the loop of the source swaps the half-open segments
`[p1, p2)`, `[p3, p4)`, … of the sorted point list; the tail after the
last point is never swapped. -/
def inSwapSeg : List ℕ → ℕ → Bool
  | p1 :: p2 :: rest, i => (decide (p1 ≤ i) && decide (i < p2)) || inSwapSeg rest i
  | _, _ => false

/-- One child of the multi-point crossover: starts as a copy of `a` and
takes `b`'s genes on the swapped segments. -/
def multiPointChild (a b : List ℚ) (pts : List ℕ) : List ℚ :=
  (List.range a.length).map
    (fun i => if inSwapSeg (sortPoints pts) i then b.getD i 0 else a.getD i 0)

/-- One child of the uniform crossover: `np.where(mask, a, b)`. -/
def uniformChild (mask : List Bool) (a b : List ℚ) : List ℚ :=
  ((mask.zip a).zip b).map (fun t => if t.1.1 then t.1.2 else t.2)

/-- Repair of one categorical block after recombination: `np.argmax`
(raising on an empty block), then fill with zeros and set the argmax slot
to `1`. -/
def repairBlock (block : List ℚ) : Except DecodeError (List ℚ) :=
  if block.isEmpty then .error .emptyArgmax
  else .ok (oneHot block.length (argmaxIdx block))

/-- Repair pass over all categorical blocks, consuming `len(choices)` slots
per parameter and leaving any trailing padding untouched. -/
def repairCats : CatDims → List ℚ → Except DecodeError (List ℚ)
  | [], v => .ok v
  | (_, choices) :: rest, v =>
    match repairBlock (v.take choices.length) with
    | .error e => .error e
    | .ok b =>
      match repairCats rest (v.drop choices.length) with
      | .error e => .error e
      | .ok tl => .ok (b ++ tl)

/-- The unconditional repair pass of `crossover`: categorical blocks start
at index `len(self.bounds)`; the continuous prefix is left as recombined. -/
def repairVec (boundsLen : ℕ) (cats : CatDims) (v : List ℚ) :
    Except DecodeError (List ℚ) :=
  match repairCats cats (v.drop boundsLen) with
  | .error e => .error e
  | .ok fixed => .ok (v.take boundsLen ++ fixed)

/-- `ArchitectureVector.crossover`: dimension check, uniform or multi-point
recombination (the random uniform mask is passed in explicitly), then the
unconditional one-hot repair pass on both children. -/
def crossover (dims : ℕ) (boundsLen : ℕ) (cats : CatDims)
    (va vb : List ℚ) (dimsB : ℕ) (points : Option (List ℕ)) (mask : List Bool) :
    Except String (List ℚ × List ℚ) :=
  if dims ≠ dimsB then .error "Cannot crossover vectors with different dimensions."
  else
    let pre :=
      match points with
      | none => (uniformChild mask va vb, uniformChild mask vb va)
      | some pts => (multiPointChild va vb pts, multiPointChild vb va pts)
    match repairVec boundsLen cats pre.1, repairVec boundsLen cats pre.2 with
    | .ok c1, .ok c2 => .ok (c1, c2)
    | .error _, _ => .error "argmax of an empty sequence"
    | _, .error _ => .error "argmax of an empty sequence"

/-- Decidable check that a block is a valid one-hot vector: exactly one
slot equal to `1`, all slots `0` or `1`. -/
def isOneHotQ (l : List ℚ) : Bool :=
  (l.count 1 == 1) && l.all (fun x => x == 0 || x == 1)

/-- All categorical blocks of the (already `boundsLen`-dropped) tail of a
vector are valid one-hot vectors. -/
def catBlocksValid : CatDims → List ℚ → Bool
  | [], _ => true
  | (_, choices) :: rest, v =>
    isOneHotQ (v.take choices.length) && catBlocksValid rest (v.drop choices.length)

/-! ## Orchestrator and strategies -/

/-- A value of a Python results dict handed to `submit_results`: a string
(ids, versions), a metrics dict, or a decoded architecture spec. -/
inductive RVal
  | str (s : String)
  | metrics (m : List (String × ℚ))
  | spec (sp : List (String × DecodedVal))
deriving DecidableEq, Repr

/-- The `results` dict of the orchestrator (also the successful return
value of `run_cycle`: `architecture_id`, `metrics`, `code_version`,
`arch_spec`). -/
abbrev ResultsMap := List (String × RVal)

/-- `field in results` for a Python dict. -/
def hasField (r : ResultsMap) (f : String) : Bool :=
  (r.lookup f).isSome

/-- A call made to the active strategy's `update_with_results`, recording
the positional arguments: the source passes the single combined results
dict (`update_with_results(results)`), while the strategy signature is
`update_with_results(architecture, results)` — the `binary` shape records
a call that passes the evaluated architecture vector and its metrics as
the two separate arguments. -/
inductive StratCall
  | unary (arg : ResultsMap)
  | binary (architecture : List ℚ) (metrics : List (String × ℚ))
deriving DecidableEq, Repr

/-- Trace of one `Orchestrator.submit_results` call: its outcome, the
calls made to `ResultsDB.save_run_info`, and the calls made to the
strategy's `update_with_results`. -/
structure SubmitTrace where
  outcome : Except String Unit
  savedRuns : List ResultsMap
  strategyCalls : List StratCall
deriving Repr

/-- `Orchestrator.submit_results`, parameterized by the outcomes of the two
collaborator calls: the required-fields loop checks `architecture_id` then
`metrics` and raises before any collaborator call; then
`save_run_info(results)` is awaited, then `update_with_results(results)` —
with the whole results dict as the single positional argument. -/
def submitResultsE (r : ResultsMap) (saveOutcome updateOutcome : Except String Unit) :
    SubmitTrace :=
  if ¬ hasField r "architecture_id" then
    ⟨.error "submit_results: missing required field architecture_id", [], []⟩
  else if ¬ hasField r "metrics" then
    ⟨.error "submit_results: missing required field metrics", [], []⟩
  else
    match saveOutcome with
    | .error e => ⟨.error e, [r], []⟩
    | .ok _ =>
      match updateOutcome with
      | .error e => ⟨.error e, [r], [.unary r]⟩
      | .ok _ => ⟨.ok (), [r], [.unary r]⟩

/-- `submit_results` with both collaborators succeeding. -/
def submitResults (r : ResultsMap) : SubmitTrace :=
  submitResultsE r (.ok ()) (.ok ())

/-- Result of `ContainerManager.run_container`: a status string and the
`results` metrics payload. -/
structure RunOutcome where
  status : String
  results : List (String × ℚ)
deriving DecidableEq, Repr

/-- Outcomes of the collaborator calls a single `run_cycle` makes, in
order: strategy suggestion, decode (its value), code generation, version
commit, container create, container run, results-store save, strategy
update, container cleanup.  Each failing outcome models that call raising
with the given message. -/
structure CycleEnv where
  suggest : Except String (List ℚ)
  archSpec : List (String × DecodedVal)
  generate : Except String String
  commit : Except String String
  create : Except String String
  run : Except String RunOutcome
  save : Except String Unit
  update : Except String Unit
  cleanup : Except String Unit

/-- `Orchestrator.run_cycle`: the sequential steps of the source, with the
`try/finally` around run/submit given Python semantics — the `finally`
block always executes once `create_container` has succeeded, and if the
cleanup call itself raises, its exception propagates and replaces whatever
the body was about to return or raise.  Returns the cycle outcome together
with whether `cleanup_container` was invoked. -/
def runCycle (env : CycleEnv) : Except String ResultsMap × Bool :=
  match env.suggest with
  | .error e => (.error e, false)
  | .ok _ =>
  match env.generate with
  | .error e => (.error e, false)
  | .ok _ =>
  match env.commit with
  | .error e => (.error e, false)
  | .ok ver =>
  match env.create with
  | .error e => (.error e, false)
  | .ok _ =>
    let body : Except String ResultsMap :=
      match env.run with
      | .error e => .error e
      | .ok out =>
        if out.status ≠ "success" then .error ("Container run failed: " ++ out.status)
        else
          let finalResults : ResultsMap :=
            [("architecture_id", .str ("arch_" ++ ver.take 8)),
             ("metrics", .metrics out.results),
             ("code_version", .str ver),
             ("arch_spec", .spec env.archSpec)]
          match (submitResultsE finalResults env.save env.update).outcome with
          | .error e => .error e
          | .ok _ => .ok finalResults
    (match env.cleanup with
     | .error e2 => .error e2
     | .ok _ => body, true)

/-- An entry of the list returned by `run_batch`: a successful `run_cycle`
results dict, or the in-place failure record. -/
inductive BatchEntry
  | success (r : ResultsMap)
  | failed (error : String)
deriving DecidableEq, Repr

/-- Conversion of one cycle outcome into its batch slot (`gather` with
`return_exceptions=True` followed by the in-place rewrite, or the
`except` branch of the sequential loop). -/
def toBatchEntry : Except String ResultsMap → BatchEntry
  | .ok v => .success v
  | .error e => .failed e

/-- `Orchestrator.run_batch` over the given per-cycle outcomes: the
parallel branch gathers all outcomes and rewrites exceptions in place; the
sequential branch appends each outcome or failure record in order. -/
def runBatch (outcomes : List (Except String ResultsMap)) (parallel : Bool) :
    List BatchEntry :=
  if parallel then
    outcomes.map toBatchEntry
  else
    outcomes.foldl (fun acc r => acc ++ [toBatchEntry r]) []

/-- Status of a tracked experiment. -/
inductive ExpStatus
  | scheduled
  | running
  | stopping
  | completed
  | failed
deriving DecidableEq, Repr

/-- One entry of `self._running_experiments`. -/
structure ExpState where
  status : ExpStatus
  startTime : Option String
  logs : List String
  results : Option ResultsMap
  error : Option String
deriving DecidableEq, Repr

/-- The `_running_experiments` dict (ordered, unique keys). -/
abbrev ExpMap := List (String × ExpState)

/-- Replace the entry of `id` in the experiment map. -/
def setExp (m : ExpMap) (id : String) (st : ExpState) : ExpMap :=
  m.map (fun p => if p.1 = id then (id, st) else p)

/-- `Orchestrator.schedule_experiment`: raise if the id is already tracked,
otherwise insert the `scheduled` entry (the spawned task is modelled by
`runExperiment` below). -/
def scheduleExperiment (m : ExpMap) (id : String) : Except String ExpMap :=
  if (m.lookup id).isSome then
    .error ("Experiment " ++ id ++ " is already running or scheduled")
  else
    .ok (m ++ [(id, ⟨.scheduled, none, [], none, none⟩)])

/-- `Orchestrator._run_experiment`, run to completion: sets the status to
`running` and the start time, awaits `run_cycle`, and ends `completed`
with the stored result or — any exception being caught — `failed` with the
stored error message.  It is a total function into the updated map: no
cycle failure escapes to the scheduler's caller. -/
def runExperiment (m : ExpMap) (id : String) (now : String)
    (cycleOutcome : Except String ResultsMap) : ExpMap :=
  match m.lookup id with
  | none => m
  | some st =>
    match cycleOutcome with
    | .ok r =>
      setExp m id { st with status := .completed, startTime := some now, results := some r }
    | .error e =>
      setExp m id { st with status := .failed, startTime := some now, error := some e }

/-- `Orchestrator.get_experiment_status`: a pure read raising for unknown
ids. -/
def getExperimentStatus (m : ExpMap) (id : String) : Except String ExpState :=
  match m.lookup id with
  | none => .error ("Experiment " ++ id ++ " not found")
  | some st => .ok st

/-! ## Search strategies -/

/-- One entry of a strategy's history (`update_with_results` appends
`{"architecture": ..., "results": ...}`; `RandomSearch` adds a
`sample_num` field that plays no role in `get_best_architectures`). -/
structure HistEntry where
  architecture : List ℚ
  results : List (String × ℚ)
deriving DecidableEq, Repr

/-- The strategies' `update_with_results(architecture, results)`: an
append-only write of the evaluated architecture and its metrics — note the
two positional parameters of the signature. -/
def updateWithResults (history : List HistEntry) (architecture : List ℚ)
    (results : List (String × ℚ)) : List HistEntry :=
  history ++ [⟨architecture, results⟩]

/-- Stable descending insertion by the pre-extracted sort key (Python's
`sorted(..., reverse=True)` is stable: of two equal keys the earlier entry
stays first). -/
def insertDesc (x : HistEntry × ℚ) : List (HistEntry × ℚ) → List (HistEntry × ℚ)
  | [] => [x]
  | y :: ys => if y.2 ≤ x.2 then x :: y :: ys else y :: insertDesc x ys

/-- Stable descending sort by the pre-extracted key. -/
def sortDesc (l : List (HistEntry × ℚ)) : List (HistEntry × ℚ) :=
  l.foldr insertDesc []

/-- `get_best_architectures(metric, k)` as implemented identically by
`RandomSearch` and `BayesianOptimization`: empty history returns `[]`;
otherwise Python's `sorted` evaluates `h["results"][metric]` for every
entry in order — raising `KeyError` at the first entry lacking the metric —
then the top `k` architectures of the descending sort are returned. -/
def getBestArchitectures (history : List HistEntry) (metric : String) (k : ℕ) :
    Except String (List (List ℚ)) :=
  if history.isEmpty then .ok []
  else
    match exceptMap (fun h =>
        match h.results.lookup metric with
        | some v => .ok v
        | none => Except.error ("KeyError: " ++ metric)) history with
    | .error e => .error e
    | .ok keys =>
      .ok (((sortDesc (history.zip keys)).take k).map (fun x => x.1.architecture))

/-- The restart-selection loop of `BayesianOptimization.suggest_architecture`:
`best_value = float("-inf")`; for each restart the minimizer's returned
objective `res.fun` and location `res.x` are compared with
`if res.fun < best_value`.  `⊥` models `float("-inf")`; the selected
`best_x` starts as Python `None` (`Option.none`). -/
def bayesSelect (restarts : List (ℚ × List ℚ)) : Option (List ℚ) :=
  (restarts.foldl
    (fun st r => if (r.1 : WithBot ℚ) < st.1 then ((r.1 : WithBot ℚ), some r.2) else st)
    ((⊥ : WithBot ℚ), (none : Option (List ℚ)))).2

/-- `BayesianOptimization.suggest_architecture`: with fewer history entries
than dimensions it falls back to a uniform random vector; otherwise it fits
the surrogate on the full history and runs the restart loop, returning the
vector whose payload is the selected `best_x`.  The local-optimizer results
of the ten restarts are passed in as `restarts`. -/
def bayesSuggest (history : List HistEntry) (dims : ℕ) (randomVec : List ℚ)
    (restarts : List (ℚ × List ℚ)) : Option (List ℚ) :=
  if history.length < dims then some randomVec
  else bayesSelect restarts

/-- Whether a strategy call passes the evaluated architecture and its
metrics as two separate positional arguments — the call shape the
strategies' two-parameter `update_with_results(architecture, results)`
signature expects. -/
def isBinaryCall : StratCall → Bool
  | .binary _ _ => true
  | .unary _ => false

/-- Sample results dict with both required fields present. -/
def sampleResults : ResultsMap :=
  [("architecture_id", .str "arch_12345678"),
   ("metrics", .metrics [("accuracy", 9/10)])]

/-- Sample collaborator outcomes for a cycle in which sandbox creation
succeeds, the container run fails, and the cleanup call itself also
raises. -/
def maskingEnv : CycleEnv :=
  ⟨.ok [1/2], [("num_layers", .num 4)], .ok "print", .ok "abcdef1234",
   .ok "container-1", .error "run failed", .ok (), .ok (), .error "cleanup failed"⟩

/-- Sample strategy history whose entries all carry the metric `acc`. -/
def sampleHistory : List HistEntry :=
  [⟨[0], [("acc", 1/2)]⟩, ⟨[1], [("acc", 3/4)]⟩]

/-- Sample strategy history whose single entry carries no metric at all. -/
def bareHistory : List HistEntry :=
  [⟨[0], []⟩]

/-- Sample declared continuous bounds: one int-bounded and one
float-bounded parameter. -/
def sampleBounds : Bounds :=
  [("num_layers", ⟨2, true⟩, ⟨12, true⟩), ("dropout", ⟨0, false⟩, ⟨1, false⟩)]

/-- Sample declared categorical choices. -/
def sampleCats : CatDims :=
  [("ffn_type", ["vanilla", "gated", "expert"])]

/-- Sample architecture specification within the sample bounds/choices. -/
def sampleSpec : Spec :=
  [("num_layers", .num ⟨4, true⟩), ("dropout", .num ⟨1/4, false⟩),
   ("ffn_type", .str "gated")]

/-- The normalized slot value `encode` writes for a continuous parameter
when it succeeds: the normalized present value, or the normalized midpoint
default for an absent one. -/
def contValOf (spec : Spec) (param : String) (mn mx : PyNum) : ℚ :=
  match spec.lookup param with
  | some (.num v) => (v.val - mn.val) / (mx.val - mn.val)
  | _ => ((mn.val + mx.val) / 2 - mn.val) / (mx.val - mn.val)

/-- The one-hot block `encode` writes for a categorical parameter when it
succeeds: the one-hot of the present choice's index, or of the first
listed choice for an absent one. -/
def catBlockOf (spec : Spec) (choices : List String) (param : String) : List ℚ :=
  match spec.lookup param with
  | some (.str v) => oneHot choices.length (choices.indexOf v)
  | _ => oneHot choices.length (choices.indexOf (choices.headD ""))

/-- The condition under which `encode` accepts one continuous parameter:
a present value must be numeric and within bounds, and the normalization
never divides by zero (the declared bounds must not coincide). -/
def contOk (spec : Spec) (param : String) (mn mx : PyNum) : Prop :=
  match spec.lookup param with
  | none => mx.val - mn.val ≠ 0
  | some (.num v) => (mn.val ≤ v.val ∧ v.val ≤ mx.val) ∧ mx.val - mn.val ≠ 0
  | some (.str _) => False

/-- The condition under which `encode` accepts one categorical parameter:
a present value must be a string among the choices, and an absent one
requires a nonempty choice list for the `choices[0]` default. -/
def catOk (spec : Spec) (param : String) (choices : List String) : Prop :=
  match spec.lookup param with
  | none => choices ≠ []
  | some (.str v) => v ∈ choices
  | some (.num _) => False

/-- The choice `decode` recovers for a categorical parameter of an encoded
vector: the present choice itself, or the first listed choice. -/
def decodedChoiceOf (spec : Spec) (choices : List String) (param : String) : String :=
  match spec.lookup param with
  | some (.str v) => if v ∈ choices then v else choices.headD ""
  | _ => choices.headD ""

/-- Sample one-parameter continuous bounds for the round-trip witness. -/
def rtBounds : Bounds :=
  [("num_layers", ⟨2, true⟩, ⟨12, true⟩)]

/-- Sample complete specification for the round-trip witness. -/
def rtSpec : Spec :=
  [("num_layers", .num ⟨5, true⟩), ("ffn_type", .str "gated")]

/-! ## Supporting lemmas -/

theorem bayesSelect_foldl (l : List (ℚ × List ℚ)) :
    l.foldl
      (fun st r => if (r.1 : WithBot ℚ) < st.1 then ((r.1 : WithBot ℚ), some r.2) else st)
      ((⊥ : WithBot ℚ), (none : Option (List ℚ))) = (⊥, none) := by
  induction l with
  | nil => rfl
  | cons a l ih =>
    simp only [List.foldl_cons]
    rw [if_neg not_lt_bot]
    exact ih

theorem runBatch_foldl_eq (outcomes : List (Except String ResultsMap))
    (acc : List BatchEntry) :
    outcomes.foldl (fun acc r => acc ++ [toBatchEntry r]) acc =
      acc ++ outcomes.map toBatchEntry := by
  induction outcomes generalizing acc with
  | nil => simp
  | cons a l ih => simp [ih]

theorem runBatch_eq_map (outcomes : List (Except String ResultsMap)) (parallel : Bool) :
    runBatch outcomes parallel = outcomes.map toBatchEntry := by
  cases parallel with
  | true => simp [runBatch]
  | false => simp [runBatch, runBatch_foldl_eq]

theorem lookup_append_single (m : ExpMap) (id : String) (x : ExpState)
    (h : m.lookup id = none) : (m ++ [(id, x)]).lookup id = some x := by
  induction m with
  | nil => simp [List.lookup]
  | cons a m ih =>
    obtain ⟨k, val⟩ := a
    rw [List.cons_append]
    simp only [List.lookup] at h ⊢
    cases hk : (id == k) with
    | true => rw [hk] at h; simp at h
    | false => rw [hk] at h; exact ih h

theorem setExp_cons (k : String) (val : ExpState) (m : ExpMap) (id : String)
    (st : ExpState) :
    setExp ((k, val) :: m) id st =
      (if k = id then (id, st) else (k, val)) :: setExp m id st := rfl

theorem lookup_setExp (m : ExpMap) (id : String) (st : ExpState)
    (h : (m.lookup id).isSome = true) : (setExp m id st).lookup id = some st := by
  induction m with
  | nil => simp [List.lookup] at h
  | cons a m ih =>
    obtain ⟨k, val⟩ := a
    rw [setExp_cons]
    by_cases hk : k = id
    · rw [if_pos hk]
      simp [List.lookup]
    · rw [if_neg hk]
      have hbk : (id == k) = false := beq_eq_false_iff_ne.mpr (fun hh => hk hh.symm)
      have h2 : (List.lookup id m).isSome = true := by
        simp only [List.lookup, hbk] at h
        exact h
      simp only [List.lookup, hbk]
      exact ih h2

theorem mem_insertDesc (x y : HistEntry × ℚ) (l : List (HistEntry × ℚ))
    (hy : y ∈ insertDesc x l) : y = x ∨ y ∈ l := by
  induction l with
  | nil => simpa [insertDesc] using hy
  | cons a l ih =>
    simp only [insertDesc] at hy
    by_cases hc : a.2 ≤ x.2
    · rw [if_pos hc] at hy
      rcases List.mem_cons.mp hy with h | h
      · exact Or.inl h
      · exact Or.inr h
    · rw [if_neg hc] at hy
      rcases List.mem_cons.mp hy with h | h
      · exact Or.inr (h ▸ List.mem_cons_self a l)
      · rcases ih h with h2 | h2
        · exact Or.inl h2
        · exact Or.inr (List.mem_cons_of_mem a h2)

theorem insertDesc_perm (x : HistEntry × ℚ) (l : List (HistEntry × ℚ)) :
    (insertDesc x l).Perm (x :: l) := by
  induction l with
  | nil => exact List.Perm.refl _
  | cons a l ih =>
    simp only [insertDesc]
    by_cases hc : a.2 ≤ x.2
    · rw [if_pos hc]
    · rw [if_neg hc]
      exact (List.Perm.cons a ih).trans (List.Perm.swap x a l)

theorem sortDesc_perm (l : List (HistEntry × ℚ)) : (sortDesc l).Perm l := by
  induction l with
  | nil => exact List.Perm.refl _
  | cons a l ih =>
    exact (insertDesc_perm a (sortDesc l)).trans (List.Perm.cons a ih)

theorem insertDesc_pairwise (x : HistEntry × ℚ) (l : List (HistEntry × ℚ))
    (h : l.Pairwise (fun a b => b.2 ≤ a.2)) :
    (insertDesc x l).Pairwise (fun a b => b.2 ≤ a.2) := by
  induction l with
  | nil => simp [insertDesc]
  | cons a l ih =>
    simp only [insertDesc]
    rcases List.pairwise_cons.mp h with ⟨ha, hl⟩
    by_cases hc : a.2 ≤ x.2
    · rw [if_pos hc]
      refine List.pairwise_cons.mpr ⟨?_, h⟩
      intro z hz
      rcases List.mem_cons.mp hz with rfl | hz2
      · exact hc
      · exact le_trans (ha z hz2) hc
    · rw [if_neg hc]
      refine List.pairwise_cons.mpr ⟨?_, ih hl⟩
      intro z hz
      rcases mem_insertDesc x z l hz with rfl | hz2
      · exact le_of_not_le hc
      · exact ha z hz2

theorem sortDesc_pairwise (l : List (HistEntry × ℚ)) :
    (sortDesc l).Pairwise (fun a b => b.2 ≤ a.2) := by
  induction l with
  | nil => simp [sortDesc]
  | cons a l ih => exact insertDesc_pairwise a (sortDesc l) ih

theorem zip_map_snd_eq (f : HistEntry → ℚ) (l : List HistEntry) :
    ∀ x ∈ l.zip (l.map f), x.2 = f x.1 := by
  induction l with
  | nil => simp
  | cons a l ih =>
    intro x hx
    simp only [List.map_cons, List.zip_cons_cons] at hx
    rcases List.mem_cons.mp hx with rfl | hx2
    · rfl
    · exact ih x hx2

theorem exceptMap_ok_of_forall {α β ε : Type} (f : α → Except ε β) (g : α → β)
    (l : List α) (h : ∀ a ∈ l, f a = .ok (g a)) :
    exceptMap f l = .ok (l.map g) := by
  induction l with
  | nil => rfl
  | cons a l ih =>
    have ha := h a (List.mem_cons_self a l)
    have hrest := ih (fun x hx => h x (List.mem_cons_of_mem a hx))
    simp [exceptMap, ha, hrest]

theorem exceptMap_error_of_mem {α β ε : Type} (f : α → Except ε β) (l : List α)
    (a : α) (e0 : ε) (ha : a ∈ l) (hf : f a = .error e0) :
    ∃ e, exceptMap f l = .error e := by
  induction l with
  | nil => cases ha
  | cons b l ih =>
    cases hfb : f b with
    | error e => exact ⟨e, by simp [exceptMap, hfb]⟩
    | ok v =>
      rcases List.mem_cons.mp ha with rfl | h2
      · rw [hf] at hfb; cases hfb
      · rcases ih h2 with ⟨e, he⟩
        exact ⟨e, by simp [exceptMap, hfb, he]⟩

theorem listMax_mem : ∀ (l : List ℚ), l ≠ [] → listMax l ∈ l
  | [], h => absurd rfl h
  | [x], _ => by simp [listMax]
  | x :: y :: rest, _ => by
    rw [listMax]
    rcases le_total x (listMax (y :: rest)) with h | h
    · rw [max_eq_right h]
      exact List.mem_cons_of_mem x (listMax_mem (y :: rest) (by simp))
    · rw [max_eq_left h]
      exact List.mem_cons_self _ _

theorem le_listMax : ∀ (l : List ℚ), ∀ x ∈ l, x ≤ listMax l
  | [], z, hz => absurd hz (List.not_mem_nil z)
  | [x], z, hz => by
    simp only [List.mem_singleton] at hz
    simp [listMax, hz]
  | x :: y :: rest, z, hz => by
    rw [listMax]
    rcases List.mem_cons.mp hz with rfl | h2
    · exact le_max_left _ _
    · exact le_trans (le_listMax (y :: rest) z h2) (le_max_right _ _)

theorem argmaxIdx_lt_length : ∀ (l : List ℚ), l ≠ [] → argmaxIdx l < l.length
  | [], h => absurd rfl h
  | [_], _ => by simp [argmaxIdx]
  | x :: y :: rest, _ => by
    simp only [argmaxIdx]
    by_cases hc : listMax (y :: rest) ≤ x
    · rw [if_pos hc]; simp
    · rw [if_neg hc]
      have := argmaxIdx_lt_length (y :: rest) (by simp)
      simpa [Nat.succ_lt_succ_iff] using this

theorem argmaxIdx_of_strict : ∀ (l : List ℚ) (i : ℕ), i < l.length →
    (∀ j, j < l.length → j ≠ i → l.getD j 0 < l.getD i 0) → argmaxIdx l = i
  | [], i, hi, _ => absurd hi (by simp)
  | [x], i, hi, _ => by
    simp only [List.length_singleton] at hi
    have h0 : i = 0 := Nat.lt_one_iff.mp hi
    subst h0
    rfl
  | x :: y :: rest, 0, _, hstrict => by
    obtain ⟨j, hj, hval⟩ := List.mem_iff_getElem.mp (listMax_mem (y :: rest) (by simp))
    have hlt : (y :: rest).getD j 0 < x := by
      have h2 := hstrict (j + 1) (by simpa using Nat.succ_lt_succ hj) (by simp)
      simpa [List.getD_cons_succ, List.getD_cons_zero] using h2
    have hgd : (y :: rest).getD j 0 = (y :: rest)[j] := List.getD_eq_getElem _ _ hj
    have hle : listMax (y :: rest) ≤ x := by
      rw [← hval, ← hgd]
      exact le_of_lt hlt
    simp only [argmaxIdx]
    rw [if_pos hle]
  | x :: y :: rest, (k+1), hi, hstrict => by
    have hk : k < (y :: rest).length := by simpa using Nat.lt_of_succ_lt_succ hi
    have hxlt : x < (y :: rest).getD k 0 := by
      have h2 := hstrict 0 (by simp) (by simp)
      simpa [List.getD_cons_zero, List.getD_cons_succ] using h2
    have hmem : (y :: rest).getD k 0 ∈ (y :: rest) := by
      rw [List.getD_eq_getElem _ _ hk]
      exact List.getElem_mem hk
    have hnle : ¬ listMax (y :: rest) ≤ x :=
      fun hle => absurd (le_trans (le_listMax _ _ hmem) hle) (not_le.mpr hxlt)
    have ih := argmaxIdx_of_strict (y :: rest) k hk (fun j hj hne => by
      have h2 := hstrict (j + 1) (by simpa using Nat.succ_lt_succ hj)
        (by simpa using hne)
      simpa [List.getD_cons_succ] using h2)
    simp only [argmaxIdx]
    rw [if_neg hnle, ih]

theorem strongCount_cons (x : ℚ) (l : List ℚ) :
    strongCount (x :: l) = strongCount l + (if (9:ℚ)/10 < x then 1 else 0) := by
  by_cases hx : (9:ℚ)/10 < x
  · simp [strongCount, List.filter_cons, hx]
  · simp [strongCount, List.filter_cons, hx]

theorem strongCount_zero_forall (l : List ℚ) (h : strongCount l = 0) :
    ∀ j, j < l.length → ¬ (9:ℚ)/10 < l.getD j 0 := by
  intro j hj hstrong
  have hmem : l.getD j 0 ∈ l := by
    rw [List.getD_eq_getElem _ _ hj]
    exact List.getElem_mem hj
  have hmf : l.getD j 0 ∈ l.filter (fun x => decide ((9:ℚ)/10 < x)) :=
    List.mem_filter.mpr ⟨hmem, by simpa using hstrong⟩
  rw [strongCount, List.length_eq_zero] at h
  rw [h] at hmf
  exact absurd hmf (List.not_mem_nil _)

theorem strong_index_unique : ∀ (l : List ℚ), strongCount l = 1 →
    ∀ j1 j2, j1 < l.length → j2 < l.length →
    (9:ℚ)/10 < l.getD j1 0 → (9:ℚ)/10 < l.getD j2 0 → j1 = j2
  | [], _, j1, _, h1, _, _, _ => absurd h1 (by simp)
  | x :: l, hc, j1, j2, h1, h2, hs1, hs2 => by
    rw [strongCount_cons] at hc
    by_cases hx : (9:ℚ)/10 < x
    · rw [if_pos hx] at hc
      have hl0 : strongCount l = 0 := by omega
      have hnone := strongCount_zero_forall l hl0
      cases j1 with
      | zero =>
        cases j2 with
        | zero => rfl
        | succ k2 =>
          have hk2 : k2 < l.length := by simpa using Nat.lt_of_succ_lt_succ h2
          exact absurd (by simpa [List.getD_cons_succ] using hs2) (hnone k2 hk2)
      | succ k1 =>
        have hk1 : k1 < l.length := by simpa using Nat.lt_of_succ_lt_succ h1
        exact absurd (by simpa [List.getD_cons_succ] using hs1) (hnone k1 hk1)
    · rw [if_neg hx] at hc
      have hl1 : strongCount l = 1 := by omega
      cases j1 with
      | zero => exact absurd (by simpa using hs1) hx
      | succ k1 =>
        cases j2 with
        | zero => exact absurd (by simpa using hs2) hx
        | succ k2 =>
          have hk1 : k1 < l.length := by simpa using Nat.lt_of_succ_lt_succ h1
          have hk2 : k2 < l.length := by simpa using Nat.lt_of_succ_lt_succ h2
          have := strong_index_unique l hl1 k1 k2 hk1 hk2
            (by simpa [List.getD_cons_succ] using hs1)
            (by simpa [List.getD_cons_succ] using hs2)
          omega

theorem replicate_getD_zero : ∀ (n j : ℕ), (List.replicate n (0:ℚ)).getD j 0 = 0
  | 0, _ => by simp
  | _+1, 0 => by simp [List.replicate_succ]
  | n+1, j+1 => by
    simp only [List.replicate_succ, List.getD_cons_succ]
    exact replicate_getD_zero n j

theorem oneHot_length (n i : ℕ) : (oneHot n i).length = n := by
  simp [oneHot]

theorem oneHot_getD_self : ∀ (n i : ℕ), i < n → (oneHot n i).getD i 0 = 1
  | n+1, 0, _ => by simp [oneHot, List.replicate_succ]
  | n+1, i+1, h => by
    have ih := oneHot_getD_self n i (Nat.lt_of_succ_lt_succ h)
    simpa [oneHot, List.replicate_succ, List.getD_cons_succ] using ih

theorem oneHot_getD_ne : ∀ (n i j : ℕ), j ≠ i → (oneHot n i).getD j 0 = 0
  | 0, _, j, _ => by simp [oneHot]
  | _+1, 0, 0, h => absurd rfl h
  | n+1, 0, j+1, _ => by
    simp only [oneHot, List.replicate_succ, List.set_cons_zero, List.getD_cons_succ]
    exact replicate_getD_zero n j
  | _+1, _+1, 0, _ => by simp [oneHot, List.replicate_succ]
  | n+1, i+1, j+1, h => by
    have ih := oneHot_getD_ne n i j (fun hh => h (by rw [hh]))
    simpa [oneHot, List.replicate_succ, List.getD_cons_succ] using ih

theorem strongCount_replicate_zero : ∀ n : ℕ, strongCount (List.replicate n (0:ℚ)) = 0
  | 0 => rfl
  | n+1 => by
    rw [List.replicate_succ, strongCount_cons, strongCount_replicate_zero n]
    norm_num

theorem strongCount_oneHot : ∀ (n i : ℕ), i < n → strongCount (oneHot n i) = 1
  | n+1, 0, _ => by
    have h0 : oneHot (n+1) 0 = 1 :: List.replicate n 0 := by
      simp [oneHot, List.replicate_succ]
    rw [h0, strongCount_cons, strongCount_replicate_zero n]
    norm_num
  | n+1, i+1, h => by
    have h0 : oneHot (n+1) (i+1) = 0 :: oneHot n i := by
      simp [oneHot, List.replicate_succ]
    rw [h0, strongCount_cons, strongCount_oneHot n i (Nat.lt_of_succ_lt_succ h)]
    norm_num

theorem argmaxIdx_oneHot (n i : ℕ) (h : i < n) : argmaxIdx (oneHot n i) = i := by
  apply argmaxIdx_of_strict
  · rw [oneHot_length]; exact h
  · intro j hj hne
    rw [oneHot_getD_ne n i j hne, oneHot_getD_self n i h]
    norm_num

theorem oneHot_count_one : ∀ (n i : ℕ), i < n → (oneHot n i).count 1 = 1
  | n+1, 0, _ => by
    have h0 : oneHot (n+1) 0 = 1 :: List.replicate n 0 := by
      simp [oneHot, List.replicate_succ]
    rw [h0]
    simp [List.count_cons, List.count_replicate]
  | n+1, i+1, h => by
    have h0 : oneHot (n+1) (i+1) = 0 :: oneHot n i := by
      simp [oneHot, List.replicate_succ]
    rw [h0]
    simp [List.count_cons, oneHot_count_one n i (Nat.lt_of_succ_lt_succ h)]

theorem oneHot_all_zero_one : ∀ (n i : ℕ),
    (oneHot n i).all (fun x => x == 0 || x == 1) = true
  | 0, _ => rfl
  | n+1, 0 => by
    have h0 : oneHot (n+1) 0 = 1 :: List.replicate n 0 := by
      simp [oneHot, List.replicate_succ]
    rw [h0]
    simp [List.all_eq_true]
  | n+1, i+1 => by
    have h0 : oneHot (n+1) (i+1) = 0 :: oneHot n i := by
      simp [oneHot, List.replicate_succ]
    rw [h0]
    have ih := oneHot_all_zero_one n i
    simp only [List.all_cons, ih]
    simp

theorem isOneHotQ_oneHot (n i : ℕ) (h : i < n) : isOneHotQ (oneHot n i) = true := by
  simp [isOneHotQ, oneHot_count_one n i h, oneHot_all_zero_one n i]

theorem repairCats_valid : ∀ (cats : CatDims) (v : List ℚ),
    (∀ p ∈ cats, p.2 ≠ []) →
    ((cats.map (fun c => c.2.length)).sum ≤ v.length) →
    ∃ w, repairCats cats v = .ok w ∧ catBlocksValid cats w = true
  | [], v, _, _ => ⟨v, rfl, rfl⟩
  | (p, choices) :: rest, v, hcat, hfit => by
    have hcne : choices ≠ [] := hcat (p, choices) (List.mem_cons_self _ _)
    have hclen : 0 < choices.length := List.length_pos.mpr hcne
    have hsum : choices.length + (rest.map (fun c => c.2.length)).sum ≤ v.length := by
      simpa using hfit
    have hcv : choices.length ≤ v.length := le_trans (Nat.le_add_right _ _) hsum
    have hblock_len : (v.take choices.length).length = choices.length := by
      rw [List.length_take]
      exact min_eq_left hcv
    have hblock_ne : v.take choices.length ≠ [] := by
      intro hb
      rw [hb] at hblock_len
      exact absurd hblock_len.symm (Nat.pos_iff_ne_zero.mp hclen)
    have hbne : ¬ (v.take choices.length).isEmpty = true := by
      rw [List.isEmpty_iff]
      exact hblock_ne
    have hdrop : (rest.map (fun c => c.2.length)).sum ≤ (v.drop choices.length).length := by
      rw [List.length_drop]
      omega
    obtain ⟨w2, hw2, hvalid2⟩ := repairCats_valid rest (v.drop choices.length)
      (fun q hq => hcat q (List.mem_cons_of_mem _ hq)) hdrop
    have hargmax_lt : argmaxIdx (v.take choices.length) < (v.take choices.length).length :=
      argmaxIdx_lt_length _ hblock_ne
    have hlen1 : (oneHot (v.take choices.length).length
        (argmaxIdx (v.take choices.length))).length = choices.length := by
      rw [oneHot_length, hblock_len]
    refine ⟨oneHot (v.take choices.length).length (argmaxIdx (v.take choices.length)) ++ w2,
      ?_, ?_⟩
    · simp [repairCats, repairBlock, hbne, hw2]
    · simp only [catBlocksValid]
      rw [List.take_left' hlen1, List.drop_left' hlen1]
      rw [isOneHotQ_oneHot _ _ hargmax_lt, hvalid2]
      rfl

theorem repairVec_valid (boundsLen : ℕ) (cats : CatDims) (v : List ℚ)
    (hcat : ∀ p ∈ cats, p.2 ≠ [])
    (hfit : boundsLen + (cats.map (fun c => c.2.length)).sum ≤ v.length) :
    ∃ w, repairVec boundsLen cats v = .ok w ∧
      catBlocksValid cats (w.drop boundsLen) = true := by
  have hbl : boundsLen ≤ v.length := le_trans (Nat.le_add_right _ _) hfit
  have hdl : (cats.map (fun c => c.2.length)).sum ≤ (v.drop boundsLen).length := by
    rw [List.length_drop]
    omega
  obtain ⟨w2, hw2, hvalid⟩ := repairCats_valid cats (v.drop boundsLen) hcat hdl
  have htl : (v.take boundsLen).length = boundsLen := by
    rw [List.length_take]
    exact min_eq_left hbl
  refine ⟨v.take boundsLen ++ w2, ?_, ?_⟩
  · simp [repairVec, hw2]
  · rw [List.drop_left' htl]
    exact hvalid

theorem encodeContParam_ok (spec : Spec) (param : String) (mn mx : PyNum)
    (hok : contOk spec param mn mx) :
    encodeContParam spec param mn mx = .ok (contValOf spec param mn mx) := by
  simp only [contOk] at hok
  cases hl : spec.lookup param with
  | none =>
    rw [hl] at hok
    simp [encodeContParam, contValOf, hl, hok]
  | some v =>
    cases v with
    | num q =>
      rw [hl] at hok
      simp [encodeContParam, contValOf, hl, hok.1.1, hok.1.2, hok.2]
    | str s =>
      rw [hl] at hok
      exact hok.elim

theorem encodeContParam_ok_iff (spec : Spec) (param : String) (mn mx : PyNum) :
    (∃ q, encodeContParam spec param mn mx = .ok q) ↔ contOk spec param mn mx := by
  constructor
  · rintro ⟨q, hq⟩
    simp only [contOk]
    cases hl : spec.lookup param with
    | none =>
      simp only [encodeContParam, hl] at hq
      show mx.val - mn.val ≠ 0
      intro hz
      rw [if_pos hz] at hq
      simp at hq
    | some v =>
      cases v with
      | num q2 =>
        simp only [encodeContParam, hl] at hq
        by_cases hb : mn.val ≤ q2.val ∧ q2.val ≤ mx.val
        · by_cases hz : mx.val - mn.val = 0
          · rw [if_neg (not_not_intro hb), if_pos hz] at hq
            simp at hq
          · exact ⟨hb, hz⟩
        · rw [if_pos hb] at hq
          simp at hq
      | str s =>
        simp only [encodeContParam, hl] at hq
        simp at hq
  · intro hok
    exact ⟨_, encodeContParam_ok spec param mn mx hok⟩

theorem encodeCatParam_ok (spec : Spec) (param : String) (choices : List String)
    (hok : catOk spec param choices) :
    encodeCatParam spec param choices = .ok (catBlockOf spec choices param) := by
  simp only [catOk] at hok
  cases hl : spec.lookup param with
  | none =>
    rw [hl] at hok
    obtain ⟨c, cs, rfl⟩ : ∃ c cs, choices = c :: cs := by
      cases choices with
      | nil => exact absurd rfl hok
      | cons c cs => exact ⟨c, cs, rfl⟩
    simp [encodeCatParam, catBlockOf, hl]
  | some v =>
    cases v with
    | num q =>
      rw [hl] at hok
      exact hok.elim
    | str s =>
      rw [hl] at hok
      have hok2 : s ∈ choices := hok
      simp [encodeCatParam, catBlockOf, hl, hok2]

theorem encodeCatParam_ok_iff (spec : Spec) (param : String) (choices : List String) :
    (∃ b, encodeCatParam spec param choices = .ok b) ↔ catOk spec param choices := by
  constructor
  · rintro ⟨b, hq⟩
    simp only [catOk]
    cases hl : spec.lookup param with
    | none =>
      simp only [encodeCatParam, hl] at hq
      cases choices with
      | nil => simp at hq
      | cons c cs => simp
    | some v =>
      cases v with
      | num q =>
        simp only [encodeCatParam, hl] at hq
        simp at hq
      | str s =>
        simp only [encodeCatParam, hl] at hq
        by_contra hmem
        rw [if_neg hmem] at hq
        simp at hq
  · intro hok
    exact ⟨_, encodeCatParam_ok spec param choices hok⟩

theorem exceptMap_ok_iff {α β ε : Type} (f : α → Except ε β) (l : List α) :
    (∃ bs, exceptMap f l = .ok bs) ↔ ∀ a ∈ l, ∃ b, f a = .ok b := by
  induction l with
  | nil => simp [exceptMap]
  | cons a l ih =>
    constructor
    · rintro ⟨bs, hbs⟩
      simp only [exceptMap] at hbs
      cases hfa : f a with
      | error e =>
        rw [hfa] at hbs
        simp at hbs
      | ok b =>
        rw [hfa] at hbs
        cases hrest : exceptMap f l with
        | error e =>
          rw [hrest] at hbs
          simp at hbs
        | ok bs2 =>
          intro a2 ha2
          rcases List.mem_cons.mp ha2 with rfl | h2
          · exact ⟨b, hfa⟩
          · exact (ih.mp ⟨bs2, hrest⟩) a2 h2
    · intro h
      obtain ⟨b, hbb⟩ := h a (List.mem_cons_self a l)
      obtain ⟨bs, hbs⟩ := ih.mpr (fun x hx => h x (List.mem_cons_of_mem a hx))
      exact ⟨b :: bs, by simp [exceptMap, hbb, hbs]⟩

theorem encode_eq_of_ok (dims : ℕ) (bounds : Bounds) (cats : CatDims) (spec : Spec)
    (h1 : ∀ b ∈ bounds, contOk spec b.1 b.2.1 b.2.2)
    (h2 : ∀ c ∈ cats, catOk spec c.1 c.2) :
    encode dims bounds cats spec =
      .ok ((bounds.map (fun b => contValOf spec b.1 b.2.1 b.2.2)) ++
        ((cats.map (fun c => catBlockOf spec c.2 c.1)).flatten) ++
        List.replicate (dims - requiredDims bounds cats) 0) := by
  have hm1 : exceptMap (fun b => encodeContParam spec b.1 b.2.1 b.2.2) bounds =
      .ok (bounds.map (fun b => contValOf spec b.1 b.2.1 b.2.2)) :=
    exceptMap_ok_of_forall _ _ _
      (fun b hbm => encodeContParam_ok spec b.1 b.2.1 b.2.2 (h1 b hbm))
  have hm2 : exceptMap (fun c => encodeCatParam spec c.1 c.2) cats =
      .ok (cats.map (fun c => catBlockOf spec c.2 c.1)) :=
    exceptMap_ok_of_forall _ _ _
      (fun c hcm => encodeCatParam_ok spec c.1 c.2 (h2 c hcm))
  simp [encode, hm1, hm2]

theorem encode_ok_iff (dims : ℕ) (bounds : Bounds) (cats : CatDims) (spec : Spec) :
    (∃ vec, encode dims bounds cats spec = .ok vec) ↔
      ((∀ b ∈ bounds, contOk spec b.1 b.2.1 b.2.2) ∧
        (∀ c ∈ cats, catOk spec c.1 c.2)) := by
  constructor
  · rintro ⟨vec, hvec⟩
    simp only [encode] at hvec
    cases hm1 : exceptMap (fun b => encodeContParam spec b.1 b.2.1 b.2.2) bounds with
    | error e =>
      rw [hm1] at hvec
      simp at hvec
    | ok conts =>
      rw [hm1] at hvec
      cases hm2 : exceptMap (fun c => encodeCatParam spec c.1 c.2) cats with
      | error e =>
        rw [hm2] at hvec
        simp at hvec
      | ok blocks =>
        constructor
        · intro b hbm
          obtain ⟨q, hq⟩ := (exceptMap_ok_iff _ bounds).mp ⟨conts, hm1⟩ b hbm
          exact (encodeContParam_ok_iff spec b.1 b.2.1 b.2.2).mp ⟨q, hq⟩
        · intro c hcm
          obtain ⟨blk, hblk⟩ := (exceptMap_ok_iff _ cats).mp ⟨blocks, hm2⟩ c hcm
          exact (encodeCatParam_ok_iff spec c.1 c.2).mp ⟨blk, hblk⟩
  · rintro ⟨h1, h2⟩
    exact ⟨_, encode_eq_of_ok dims bounds cats spec h1 h2⟩

theorem contValOf_absent (spec : Spec) (param : String) (mn mx : PyNum)
    (hnone : spec.lookup param = none) (hne : mx.val - mn.val ≠ 0) :
    contValOf spec param mn mx = 1/2 := by
  simp only [contValOf, hnone]
  rw [div_eq_iff hne]
  ring

theorem catBlockOf_absent (spec : Spec) (choices : List String) (param : String)
    (hnone : spec.lookup param = none) (hne : choices ≠ []) :
    catBlockOf spec choices param = oneHot choices.length 0 := by
  obtain ⟨c, cs, rfl⟩ : ∃ c cs, choices = c :: cs := by
    cases choices with
    | nil => exact absurd rfl hne
    | cons c cs => exact ⟨c, cs, rfl⟩
  simp [catBlockOf, hnone, List.indexOf_cons_self]

theorem pyRound_close (q : ℚ) : |((pyRound q : ℤ) : ℚ) - q| ≤ 1/2 := by
  have h1 : (⌊q⌋ : ℚ) ≤ q := Int.floor_le q
  have h2 : q < ⌊q⌋ + 1 := Int.lt_floor_add_one q
  unfold pyRound
  by_cases hc1 : q - ⌊q⌋ < 1/2
  · rw [if_pos hc1, abs_le]
    constructor <;> push_cast <;> linarith
  · rw [if_neg hc1]
    by_cases hc2 : 1/2 < q - ⌊q⌋
    · rw [if_pos hc2, abs_le]
      constructor <;> push_cast <;> linarith
    · rw [if_neg hc2]
      by_cases hc3 : ⌊q⌋ % 2 = 0
      · rw [if_pos hc3, abs_le]
        constructor <;> push_cast <;> linarith
      · rw [if_neg hc3, abs_le]
        constructor <;> push_cast <;> linarith

theorem decodeConts_map : ∀ (bounds : Bounds) (f : String × PyNum × PyNum → ℚ),
    decodeConts bounds (bounds.map f) =
      bounds.map (fun b => (b.1, DecodedVal.num (decodeContVal (f b) b.2.1 b.2.2)))
  | [], _ => rfl
  | (p, mn, mx) :: rest, f => by
    simp only [List.map_cons, decodeConts, List.headD_cons, List.tail_cons]
    rw [decodeConts_map rest f]

theorem oneHot_ne_empty (n i : ℕ) (h : 0 < n) : ¬ (oneHot n i).isEmpty = true := by
  rw [List.isEmpty_iff]
  intro hb
  have hlen := oneHot_length n i
  rw [hb] at hlen
  simp at hlen
  omega

theorem decodeCatBlock_catBlockOf (spec : Spec) (choices : List String) (param : String)
    (hok : catOk spec param choices) :
    decodeCatBlock choices (catBlockOf spec choices param) =
      .ok (decodedChoiceOf spec choices param, false) := by
  simp only [catOk] at hok
  cases hl : spec.lookup param with
  | none =>
    rw [hl] at hok
    obtain ⟨c, cs, rfl⟩ : ∃ c cs, choices = c :: cs := by
      cases choices with
      | nil => exact absurd rfl hok
      | cons c cs => exact ⟨c, cs, rfl⟩
    have hblock : catBlockOf spec (c :: cs) param = oneHot (c :: cs).length 0 := by
      simp [catBlockOf, hl, List.indexOf_cons_self]
    rw [hblock]
    have hsc : strongCount (oneHot (cs.length + 1) 0) = 1 :=
      strongCount_oneHot _ _ (by omega)
    have ham : argmaxIdx (oneHot (cs.length + 1) 0) = 0 :=
      argmaxIdx_oneHot _ _ (by omega)
    have hnil : ¬ oneHot (cs.length + 1) 0 = [] := by
      intro hb
      have hlen := oneHot_length (cs.length + 1) 0
      rw [hb] at hlen
      simp at hlen
    simp [decodeCatBlock, decodedChoiceOf, hl, hsc, ham, hnil]
  | some v =>
    cases v with
    | num q =>
      rw [hl] at hok
      exact hok.elim
    | str s =>
      rw [hl] at hok
      have hok2 : s ∈ choices := hok
      have hlt : choices.indexOf s < choices.length := List.indexOf_lt_length.mpr hok2
      have hsc : strongCount (oneHot choices.length (choices.indexOf s)) = 1 :=
        strongCount_oneHot _ _ hlt
      have ham : argmaxIdx (oneHot choices.length (choices.indexOf s)) =
          choices.indexOf s := argmaxIdx_oneHot _ _ hlt
      have hnil : ¬ oneHot choices.length (choices.indexOf s) = [] := by
        intro hb
        have hlen := oneHot_length choices.length (choices.indexOf s)
        rw [hb] at hlen
        simp at hlen
        omega
      have hget : choices[choices.indexOf s]? = some s := by
        rw [← List.get?_eq_getElem?]
        exact List.indexOf_get? hok2
      simp [catBlockOf, hl, decodeCatBlock, hsc, ham, hnil, hget,
        decodedChoiceOf, hok2]

theorem catBlockOf_length (spec : Spec) (choices : List String) (param : String) :
    (catBlockOf spec choices param).length = choices.length := by
  simp only [catBlockOf]
  cases spec.lookup param with
  | none => rw [oneHot_length]
  | some v => cases v with
    | num q => rw [oneHot_length]
    | str s => rw [oneHot_length]

theorem decodeCats_encode (spec : Spec) : ∀ (cats : CatDims) (rest : List ℚ),
    (∀ c ∈ cats, catOk spec c.1 c.2) →
    decodeCats cats ((cats.map (fun c => catBlockOf spec c.2 c.1)).flatten ++ rest) =
      .ok (cats.map (fun c => (c.1, DecodedVal.str (decodedChoiceOf spec c.2 c.1))), [])
  | [], _, _ => rfl
  | (p, choices) :: rest2, rest, hok => by
    have hokh := hok (p, choices) (List.mem_cons_self _ _)
    have hlenb : (catBlockOf spec choices p).length = choices.length :=
      catBlockOf_length spec choices p
    simp only [List.map_cons, List.flatten_cons, List.append_assoc, decodeCats]
    rw [List.take_left' hlenb, List.drop_left' hlenb]
    rw [decodeCatBlock_catBlockOf spec choices p hokh]
    rw [decodeCats_encode spec rest2 rest (fun c hc => hok c (List.mem_cons_of_mem _ hc))]
    rfl

theorem lookup_map_self {α β : Type} (key : α → String) (f : α → β) :
    ∀ (l : List α) (a : α), a ∈ l → (l.map key).Nodup →
      (l.map (fun x => (key x, f x))).lookup (key a) = some (f a)
  | [], a, ha, _ => absurd ha (List.not_mem_nil a)
  | b :: l, a, ha, hnd => by
    rw [List.map_cons, List.nodup_cons] at hnd
    rcases List.mem_cons.mp ha with rfl | h2
    · simp [List.lookup]
    · have hne : (key a == key b) = false := by
        rw [beq_eq_false_iff_ne]
        intro he
        exact hnd.1 (by rw [← he]; exact List.mem_map_of_mem key h2)
      simp only [List.map_cons, List.lookup, hne]
      exact lookup_map_self key f l a h2 hnd.2

theorem lookup_none_of_not_mem_keys {β : Type} :
    ∀ (l : List (String × β)) (k : String), k ∉ l.map Prod.fst → l.lookup k = none
  | [], _, _ => rfl
  | (k1, v1) :: l, k, hk => by
    rw [List.map_cons, List.mem_cons] at hk
    push_neg at hk
    have hne : (k == k1) = false := beq_eq_false_iff_ne.mpr hk.1
    simp only [List.lookup, hne]
    exact lookup_none_of_not_mem_keys l k hk.2

theorem lookup_append_some {β : Type} :
    ∀ (l1 l2 : List (String × β)) (k : String) (v : β),
      l1.lookup k = some v → (l1 ++ l2).lookup k = some v
  | [], _, _, _, h => by simp [List.lookup] at h
  | (k1, v1) :: l1, l2, k, v, h => by
    rw [List.cons_append]
    simp only [List.lookup] at h ⊢
    cases hk : (k == k1) with
    | true => rw [hk] at h; exact h
    | false => rw [hk] at h; exact lookup_append_some l1 l2 k v h

theorem lookup_append_none {β : Type} :
    ∀ (l1 l2 : List (String × β)) (k : String),
      l1.lookup k = none → (l1 ++ l2).lookup k = l2.lookup k
  | [], _, _, _ => rfl
  | (k1, v1) :: l1, l2, k, h => by
    rw [List.cons_append]
    simp only [List.lookup] at h ⊢
    cases hk : (k == k1) with
    | true => rw [hk] at h; simp at h
    | false => rw [hk] at h; exact lookup_append_none l1 l2 k h

/-! ## Claim theorems -/

/-- C4: the restart-selection loop of
`BayesianOptimization.suggest_architecture` never selects any candidate —
`best_value` is initialized to `float("-inf")` and only updated when
`res.fun < best_value`, which is never true — so once the history reaches
the configured dimensionality the returned vector's payload is Python
`None`, not the local optimum with the highest acquisition value. -/
theorem bayesopt_best_x_never_updated :
    (∀ restarts : List (ℚ × List ℚ), bayesSelect restarts = none) ∧
    (∀ (history : List HistEntry) (randomVec : List ℚ)
        (restarts : List (ℚ × List ℚ)),
      bayesSuggest history history.length randomVec restarts = none) := by
  constructor
  · intro restarts
    simp [bayesSelect, bayesSelect_foldl]
  · intro history rv restarts
    simp [bayesSuggest, bayesSelect, bayesSelect_foldl]

/-- C2: `run_batch` returns, in both parallel and sequential modes, an
ordered list with exactly one entry per requested cycle: the cycle's
successful results dict, or the failed-marker record carrying the error
message; a failing cycle never shortens the list or aborts the call. -/
theorem run_batch_full_length (outcomes : List (Except String ResultsMap))
    (parallel : Bool) :
    (runBatch outcomes parallel).length = outcomes.length ∧
    ∀ i, i < outcomes.length →
      (runBatch outcomes parallel).getD i (.failed "") =
        toBatchEntry (outcomes.getD i (.error "")) := by
  refine ⟨by simp [runBatch_eq_map], ?_⟩
  intro i hi
  have h1 : outcomes[i]? = some outcomes[i] := List.getElem?_eq_getElem hi
  simp [runBatch_eq_map, List.getD_eq_getElem?_getD, List.getElem?_map, h1]

/-- Witness for C2 at a concrete two-cycle batch with one failure. -/
theorem run_batch_full_length_witness :
    (1 < 2) ∧
    (runBatch [Except.ok sampleResults, Except.error "boom"] true).getD 1 (.failed "") =
      toBatchEntry (Except.error "boom") :=
  ⟨by decide,
   (run_batch_full_length [Except.ok sampleResults, Except.error "boom"] true).2 1
     (by decide)⟩

/-- C1 (amended): `submit_results` validates `architecture_id` and
`metrics` before any collaborator call — a missing field raises and the
results store is never invoked; with both fields present it persists the
results via `save_run_info` and then invokes the strategy's
`update_with_results` passing the entire results dict as the single
positional argument (not the evaluated architecture and its metrics as the
two separate arguments of the strategy signature). -/
theorem submit_results_contract (r : ResultsMap) (save update : Except String Unit) :
    ((hasField r "architecture_id" = false ∨ hasField r "metrics" = false) →
      (∃ e, (submitResultsE r save update).outcome = .error e) ∧
      (submitResultsE r save update).savedRuns = []) ∧
    (hasField r "architecture_id" = true → hasField r "metrics" = true →
      (submitResultsE r save update).savedRuns = [r] ∧
      (save = .ok () → update = .ok () →
        (submitResultsE r save update).outcome = .ok () ∧
        (submitResultsE r save update).strategyCalls = [.unary r])) := by
  constructor
  · rintro (h | h)
    · refine ⟨⟨"submit_results: missing required field architecture_id", ?_⟩, ?_⟩ <;>
        simp [submitResultsE, h]
    · cases h1 : hasField r "architecture_id" with
      | false =>
        refine ⟨⟨"submit_results: missing required field architecture_id", ?_⟩, ?_⟩ <;>
          simp [submitResultsE, h1]
      | true =>
        refine ⟨⟨"submit_results: missing required field metrics", ?_⟩, ?_⟩ <;>
          simp [submitResultsE, h1, h]
  · intro h1 h2
    constructor
    · cases save <;> cases update <;> simp [submitResultsE, h1, h2]
    · rintro rfl rfl
      simp [submitResultsE, h1, h2]

/-- Witness for C1: a results dict with both fields is persisted and the
strategy call is made; the spec example `submit_results` with only
`metrics` fails without touching the store. -/
theorem submit_results_contract_witness :
    hasField sampleResults "architecture_id" = true ∧
    hasField sampleResults "metrics" = true ∧
    (submitResults sampleResults).savedRuns = [sampleResults] ∧
    (submitResults sampleResults).strategyCalls = [.unary sampleResults] ∧
    (submitResultsE [("metrics", RVal.metrics [])] (.ok ()) (.ok ())).savedRuns = [] := by
  have h := (submit_results_contract sampleResults (.ok ()) (.ok ())).2 (by decide) (by decide)
  have h0 := (submit_results_contract [("metrics", RVal.metrics [])] (.ok ()) (.ok ())).1
    (Or.inl (by decide))
  exact ⟨by decide, by decide, h.1, (h.2 rfl rfl).2, h0.2⟩

/-- C1 counterexample: with both required fields present, the single call
made to the strategy's `update_with_results` passes the whole results dict
as one argument; no call passes the evaluated architecture and its metrics
as the two separate arguments the claim describes. -/
theorem submit_results_unary_call_cex :
    (submitResults sampleResults).strategyCalls = [StratCall.unary sampleResults] ∧
    ((submitResults sampleResults).strategyCalls.any isBinaryCall) = false := by
  constructor
  · rfl
  · rfl

/-- C3 (amended): once `create_container` has succeeded in `run_cycle`,
the `finally` block invokes `cleanup_container` on every exit path; but a
failure raised by the cleanup itself propagates and replaces the original
error of the cycle (Python `try/finally` semantics — the original
exception is not the one the caller sees). -/
theorem run_cycle_cleanup_contract (env : CycleEnv) (v : List ℚ)
    (code ver cid : String)
    (hs : env.suggest = .ok v) (hg : env.generate = .ok code)
    (hc : env.commit = .ok ver) (hcr : env.create = .ok cid) :
    (runCycle env).2 = true ∧
    ∀ e2, env.cleanup = .error e2 → (runCycle env).1 = .error e2 := by
  constructor
  · simp [runCycle, hs, hg, hc, hcr]
  · intro e2 h2
    simp [runCycle, hs, hg, hc, hcr, h2]

/-- Witness for C3 at a concrete environment with a failing run and a
failing cleanup. -/
theorem run_cycle_cleanup_contract_witness :
    maskingEnv.create = .ok "container-1" ∧ (runCycle maskingEnv).2 = true :=
  ⟨rfl,
   (run_cycle_cleanup_contract maskingEnv [1/2] "print" "abcdef1234" "container-1"
     rfl rfl rfl rfl).1⟩

/-- C3 counterexample: the cycle's original error is the failed container
run, but the caller sees the cleanup failure — the cleanup error masked
the original error, contradicting the claim as stated. -/
theorem run_cycle_cleanup_masks_cex :
    maskingEnv.run = .error "run failed" ∧
    maskingEnv.cleanup = .error "cleanup failed" ∧
    (runCycle maskingEnv).1 = .error "cleanup failed" ∧
    ("cleanup failed" : String) ≠ "run failed" := by
  refine ⟨rfl, rfl, rfl, by decide⟩

/-- C9: `schedule_experiment` raises for an already-tracked id; otherwise
it records the `scheduled` entry and the spawned `_run_experiment` task —
a total function, every cycle failure being caught — drives that entry to
`completed` with the stored result or `failed` with the stored error, so
`get_experiment_status` after natural completion reports `completed` with
a populated result. -/
theorem schedule_experiment_lifecycle (m : ExpMap) (id now : String)
    (outcome : Except String ResultsMap) :
    ((m.lookup id).isSome = true → ∃ e, scheduleExperiment m id = .error e) ∧
    (m.lookup id = none →
      ∃ m2, scheduleExperiment m id = .ok m2 ∧
        m2.lookup id = some ⟨.scheduled, none, [], none, none⟩ ∧
        (∀ r, outcome = .ok r →
          getExperimentStatus (runExperiment m2 id now outcome) id =
            .ok ⟨.completed, some now, [], some r, none⟩) ∧
        (∀ e, outcome = .error e →
          getExperimentStatus (runExperiment m2 id now outcome) id =
            .ok ⟨.failed, some now, [], none, some e⟩)) := by
  constructor
  · intro h
    exact ⟨"Experiment " ++ id ++ " is already running or scheduled",
      by simp [scheduleExperiment, h]⟩
  · intro h
    have hl := lookup_append_single m id ⟨.scheduled, none, [], none, none⟩ h
    refine ⟨m ++ [(id, ⟨.scheduled, none, [], none, none⟩)], ?_, hl, ?_, ?_⟩
    · simp [scheduleExperiment, h]
    · rintro r rfl
      have hset := lookup_setExp (m ++ [(id, ⟨.scheduled, none, [], none, none⟩)]) id
        ⟨.completed, some now, [], some r, none⟩ (by rw [hl]; rfl)
      simp [runExperiment, hl, getExperimentStatus, hset]
    · rintro e rfl
      have hset := lookup_setExp (m ++ [(id, ⟨.scheduled, none, [], none, none⟩)]) id
        ⟨.failed, some now, [], none, some e⟩ (by rw [hl]; rfl)
      simp [runExperiment, hl, getExperimentStatus, hset]

/-- C8 (amended): `get_best_architectures` — implemented identically by
`RandomSearch` and `BayesianOptimization` — returns `[]` for an empty
history; when every history entry carries the metric it returns the top-k
architectures of the stable descending sort by that metric; but when the
history is nonempty and some entry lacks the metric (in particular when no
entry has it), Python's `sorted` key extraction raises `KeyError` instead
of returning `[]`. -/
theorem get_best_architectures_contract (history : List HistEntry)
    (metric : String) (k : ℕ) :
    (history = [] → getBestArchitectures history metric k = .ok []) ∧
    ((∀ h ∈ history, (h.results.lookup metric).isSome = true) →
      ∃ sortedH : List (HistEntry × ℚ),
        sortedH.Perm
          (history.zip (history.map (fun h => (h.results.lookup metric).getD 0))) ∧
        sortedH.Pairwise (fun a b => b.2 ≤ a.2) ∧
        (∀ x ∈ sortedH, x.2 = (x.1.results.lookup metric).getD 0) ∧
        getBestArchitectures history metric k =
          .ok ((sortedH.take k).map (fun x => x.1.architecture))) ∧
    (history ≠ [] → (∃ h, h ∈ history ∧ h.results.lookup metric = none) →
      ∃ e, getBestArchitectures history metric k = .error e) := by
  refine ⟨?_, ?_, ?_⟩
  · rintro rfl; rfl
  · intro hall
    have hmap : exceptMap (fun h =>
        match h.results.lookup metric with
        | some v => Except.ok v
        | none => Except.error ("KeyError: " ++ metric)) history =
        .ok (history.map (fun h => (h.results.lookup metric).getD 0)) := by
      apply exceptMap_ok_of_forall
      intro a ha
      rcases Option.isSome_iff_exists.mp (hall a ha) with ⟨v, hv⟩
      simp [hv]
    by_cases hh : history.isEmpty
    · have hnil : history = [] := List.isEmpty_iff.mp hh
      subst hnil
      exact ⟨[], by simp, by simp, by simp, by simp [getBestArchitectures]⟩
    · refine ⟨sortDesc
        (history.zip (history.map (fun h => (h.results.lookup metric).getD 0))),
        sortDesc_perm _, sortDesc_pairwise _, ?_, ?_⟩
      · intro x hx
        have hx2 := (sortDesc_perm _).mem_iff.mp hx
        exact zip_map_snd_eq _ history x hx2
      · simp [getBestArchitectures, hh, hmap]
  · rintro hne ⟨a, ha, hnone⟩
    rcases exceptMap_error_of_mem (fun h =>
        match h.results.lookup metric with
        | some v => Except.ok v
        | none => Except.error ("KeyError: " ++ metric)) history a
        ("KeyError: " ++ metric) ha (by simp [hnone]) with ⟨e, he⟩
    have hh : ¬ history.isEmpty = true := by
      cases history with
      | nil => exact absurd rfl hne
      | cons b t => simp
    exact ⟨e, by simp [getBestArchitectures, hh, he]⟩

/-- Witness for C8: a history whose entries all carry `acc` yields the
top-1 architecture, and the empty history yields `[]`. -/
theorem get_best_architectures_contract_witness :
    (∀ h ∈ sampleHistory, (h.results.lookup "acc").isSome = true) ∧
    getBestArchitectures sampleHistory "acc" 1 = .ok [[1]] ∧
    getBestArchitectures ([] : List HistEntry) "acc" 1 = .ok [] :=
  ⟨by decide,
   by norm_num [getBestArchitectures, sampleHistory, exceptMap, sortDesc,
     insertDesc, List.lookup],
   (get_best_architectures_contract [] "acc" 1).1 rfl⟩

/-- C8 counterexample: a nonempty history none of whose entries carries
the metric makes `get_best_architectures` raise `KeyError` — it neither
returns `[]` nor avoids failure as the claim states. -/
theorem get_best_architectures_keyerror_cex :
    (∀ h ∈ bareHistory, h.results.lookup "accuracy" = none) ∧
    getBestArchitectures bareHistory "accuracy" 1 = .error "KeyError: accuracy" := by
  constructor
  · decide
  · rfl

/-- C7 (amended): decoding a categorical block never fails (for a declared
parameter with a nonempty choice list): a block without exactly one
element *strictly above* the 0.9 threshold — the source compares with
`one_hot > 0.9`, not at-or-above — deterministically falls back to the
first listed choice and flags the logged ambiguity warning, while a block
with exactly one element strictly above 0.9 decodes to that element's
choice. -/
theorem decode_categorical_fallback (choices : List String) (block : List ℚ)
    (hne : choices ≠ []) (hlen : block.length = choices.length) :
    (strongCount block ≠ 1 →
      decodeCatBlock choices block = .ok (choices.getD 0 "", true)) ∧
    (∀ i (hic : i < choices.length), (9:ℚ)/10 < block.getD i 0 →
      strongCount block = 1 →
      decodeCatBlock choices block = .ok (choices.get ⟨i, hic⟩, false)) := by
  have hclen : 0 < choices.length := List.length_pos.mpr hne
  have hbne : ¬ block.isEmpty = true := by
    rw [List.isEmpty_iff]
    intro hb
    rw [hb] at hlen
    exact absurd hlen.symm (Nat.pos_iff_ne_zero.mp hclen)
  constructor
  · intro hamb
    obtain ⟨c, cs, rfl⟩ : ∃ c cs, choices = c :: cs := by
      cases choices with
      | nil => exact absurd rfl hne
      | cons c cs => exact ⟨c, cs, rfl⟩
    simp [decodeCatBlock, hbne, hamb]
  · intro i hic hstrong hone
    have hi : i < block.length := by rw [hlen]; exact hic
    have hargmax : argmaxIdx block = i := by
      apply argmaxIdx_of_strict block i hi
      intro j hj hne2
      rcases le_or_lt (block.getD j 0) ((9:ℚ)/10) with hle | hgt
      · exact lt_of_le_of_lt hle hstrong
      · exact absurd (strong_index_unique block hone j i hj hi hgt hstrong) hne2
    have hget : choices[i]? = some (choices.get ⟨i, hic⟩) := by
      rw [List.getElem?_eq_getElem hic]
      simp [List.get_eq_getElem]
    simp [decodeCatBlock, hbne, hone, hargmax, hget]

/-- Witness for C7: a clean one-hot block decodes to its choice without a
warning; a block whose strongest activation is only 0.9 is ambiguous under
the strict comparison and falls back to the first choice with a warning. -/
theorem decode_categorical_fallback_witness :
    (["vanilla", "gated", "expert"] : List String) ≠ [] ∧
    decodeCatBlock ["vanilla", "gated", "expert"] [0, 1, 0] = .ok ("gated", false) ∧
    decodeCatBlock ["vanilla", "gated", "expert"] [1/2, 9/10, 0] = .ok ("vanilla", true) :=
  ⟨by decide,
   (decode_categorical_fallback ["vanilla", "gated", "expert"] [0, 1, 0]
     (by decide) (by decide)).2 1 (by decide) (by norm_num)
     (by norm_num [strongCount, List.filter_cons]),
   (decode_categorical_fallback ["vanilla", "gated", "expert"] [1/2, 9/10, 0]
     (by decide) (by decide)).1
     (by norm_num [strongCount, List.filter_cons])⟩

/-- C7 counterexample: the block `[0.5, 0.9]` has exactly one element at
or above the threshold 0.9 (at index 1), yet decode treats it as ambiguous
— the source counts only elements strictly above 0.9 — and returns the
first choice instead of that element's choice. -/
theorem decode_threshold_strict_cex :
    ((([1/2, 9/10] : List ℚ).filter (fun x => decide ((9:ℚ)/10 ≤ x))).length = 1) ∧
    ([1/2, 9/10] : List ℚ).getD 1 0 = 9/10 ∧
    decodeCatBlock ["a", "b"] [1/2, 9/10] = .ok ("a", true) ∧
    ("a" : String) ≠ "b" := by
  refine ⟨by norm_num [List.filter_cons], rfl,
    by norm_num [decodeCatBlock, strongCount, List.filter_cons, argmaxIdx, listMax],
    by decide⟩

/-- C6: for any two parents of the same dimensions, any crossover-point
set or the uniform mode, and any recombination mask, both children of
`crossover` have every categorical block equal to a valid one-hot vector —
the argmax repair pass runs unconditionally after recombination (each
declared categorical parameter having a nonempty choice list, a one-hot
block being impossible otherwise). -/
theorem crossover_children_onehot (dims boundsLen : ℕ) (cats : CatDims)
    (va vb : List ℚ) (points : Option (List ℕ)) (mask : List Bool)
    (hva : va.length = dims) (hvb : vb.length = dims) (hmask : mask.length = dims)
    (hcat : ∀ p ∈ cats, p.2 ≠ [])
    (hfit : boundsLen + (cats.map (fun c => c.2.length)).sum ≤ dims) :
    ∃ c1 c2, crossover dims boundsLen cats va vb dims points mask = .ok (c1, c2) ∧
      catBlocksValid cats (c1.drop boundsLen) = true ∧
      catBlocksValid cats (c2.drop boundsLen) = true := by
  cases points with
  | none =>
    have hu1 : (uniformChild mask va vb).length = dims := by
      simp [uniformChild, List.length_zip, hva, hvb, hmask]
    have hu2 : (uniformChild mask vb va).length = dims := by
      simp [uniformChild, List.length_zip, hva, hvb, hmask]
    obtain ⟨c1, h1, hv1⟩ := repairVec_valid boundsLen cats (uniformChild mask va vb)
      hcat (by rw [hu1]; exact hfit)
    obtain ⟨c2, h2, hv2⟩ := repairVec_valid boundsLen cats (uniformChild mask vb va)
      hcat (by rw [hu2]; exact hfit)
    refine ⟨c1, c2, ?_, hv1, hv2⟩
    simp [crossover, h1, h2]
  | some pts =>
    have hm1 : (multiPointChild va vb pts).length = dims := by
      simp [multiPointChild, hva]
    have hm2 : (multiPointChild vb va pts).length = dims := by
      simp [multiPointChild, hvb]
    obtain ⟨c1, h1, hv1⟩ := repairVec_valid boundsLen cats (multiPointChild va vb pts)
      hcat (by rw [hm1]; exact hfit)
    obtain ⟨c2, h2, hv2⟩ := repairVec_valid boundsLen cats (multiPointChild vb va pts)
      hcat (by rw [hm2]; exact hfit)
    refine ⟨c1, c2, ?_, hv1, hv2⟩
    simp [crossover, h1, h2]

/-- Witness for C6: a concrete two-point crossover of two 5-dimensional
parents; both children come back with the categorical block re-one-hotted. -/
theorem crossover_children_onehot_witness :
    (∀ p ∈ sampleCats, p.2 ≠ []) ∧
    crossover 5 1 sampleCats [1/2, 0, 3/4, 1/4, 0] [1, 1, 0, 0, 0] 5 (some [2, 4])
      [true, false, true, false, true] = .ok ([1/2, 1, 0, 0, 0], [1, 1, 0, 0, 0]) ∧
    catBlocksValid sampleCats ([1, 0, 0, 0] : List ℚ) = true := by
  have hcomp : crossover 5 1 sampleCats [1/2, 0, 3/4, 1/4, 0] [1, 1, 0, 0, 0] 5
      (some [2, 4]) [true, false, true, false, true] =
      .ok ([1/2, 1, 0, 0, 0], [1, 1, 0, 0, 0]) := by
    norm_num [crossover, repairVec, repairCats, repairBlock, multiPointChild, sortPoints,
      insertSorted, inSwapSeg, oneHot, argmaxIdx, listMax, sampleCats, List.range_succ,
      List.replicate_succ]
  obtain ⟨c1, c2, heq, hv1, hv2⟩ := crossover_children_onehot 5 1 sampleCats
    [1/2, 0, 3/4, 1/4, 0] [1, 1, 0, 0, 0] (some [2, 4]) [true, false, true, false, true]
    (by decide) (by decide) (by decide) (by decide) (by decide)
  have hpair : (Except.ok (([1/2, 1, 0, 0, 0], [1, 1, 0, 0, 0]) : List ℚ × List ℚ) :
      Except String (List ℚ × List ℚ)) = .ok (c1, c2) := hcomp.symm.trans heq
  injection hpair with hpair2
  have hc1 : c1 = [1/2, 1, 0, 0, 0] := (congrArg Prod.fst hpair2).symm
  rw [hc1] at hv1
  exact ⟨by decide, hcomp, hv1⟩

/-- C10 (amended): encode accepts a specification exactly when every
present continuous value is numeric and within bounds with non-coincident
declared bounds, and every present categorical value is a string among
the declared choices (an absent categorical parameter needing a nonempty
choice list); on success an absent continuous parameter is encoded as the
normalized value 1/2 and an absent categorical parameter as the one-hot of
the first listed choice.  Beyond the two errors of the claim, encode also
raises on a non-numeric present continuous value (`TypeError`), on
coincident bounds (`ZeroDivisionError`), and on an absent categorical
parameter with an empty choice list (`IndexError`). -/
theorem encode_defaults_contract (dims : ℕ) (bounds : Bounds) (cats : CatDims)
    (spec : Spec) :
    ((∃ vec, encode dims bounds cats spec = .ok vec) ↔
      ((∀ b ∈ bounds, contOk spec b.1 b.2.1 b.2.2) ∧
        (∀ c ∈ cats, catOk spec c.1 c.2))) ∧
    ((∀ b ∈ bounds, contOk spec b.1 b.2.1 b.2.2) →
      (∀ c ∈ cats, catOk spec c.1 c.2) →
      encode dims bounds cats spec =
        .ok ((bounds.map (fun b => contValOf spec b.1 b.2.1 b.2.2)) ++
          ((cats.map (fun c => catBlockOf spec c.2 c.1)).flatten) ++
          List.replicate (dims - requiredDims bounds cats) 0) ∧
      (∀ b ∈ bounds, spec.lookup b.1 = none →
        contValOf spec b.1 b.2.1 b.2.2 = 1/2) ∧
      (∀ c ∈ cats, spec.lookup c.1 = none →
        catBlockOf spec c.2 c.1 = oneHot c.2.length 0)) := by
  refine ⟨encode_ok_iff dims bounds cats spec, ?_⟩
  intro h1 h2
  refine ⟨encode_eq_of_ok dims bounds cats spec h1 h2, ?_, ?_⟩
  · intro b hbmem hnone
    have hok := h1 b hbmem
    simp only [contOk, hnone] at hok
    exact contValOf_absent spec b.1 b.2.1 b.2.2 hnone hok
  · intro c hcmem hnone
    have hok := h2 c hcmem
    simp only [catOk, hnone] at hok
    exact catBlockOf_absent spec c.2 c.1 hnone hok

/-- Witness for C10: encoding the empty specification over a one-parameter
integer bound and one categorical parameter puts 1/2 in the continuous
slot and the one-hot of the first choice in the categorical block. -/
theorem encode_defaults_contract_witness :
    (∀ b ∈ rtBounds, contOk ([] : Spec) b.1 b.2.1 b.2.2) ∧
    (∀ c ∈ sampleCats, catOk ([] : Spec) c.1 c.2) ∧
    encode 6 rtBounds sampleCats [] = .ok [1/2, 1, 0, 0, 0, 0] := by
  have h1 : ∀ b ∈ rtBounds, contOk ([] : Spec) b.1 b.2.1 b.2.2 := by
    intro b hbmem
    simp only [rtBounds, List.mem_singleton] at hbmem
    subst hbmem
    simp only [contOk, List.lookup]
    norm_num
  have h2 : ∀ c ∈ sampleCats, catOk ([] : Spec) c.1 c.2 := by
    intro c hcmem
    simp only [sampleCats, List.mem_singleton] at hcmem
    subst hcmem
    simp [catOk, List.lookup]
  obtain ⟨henc, habs, hcatabs⟩ := (encode_defaults_contract 6 rtBounds sampleCats []).2 h1 h2
  refine ⟨h1, h2, ?_⟩
  rw [henc]
  norm_num [rtBounds, sampleCats, contValOf, catBlockOf, requiredDims, oneHot,
    List.replicate_succ, List.lookup, List.indexOf_cons_self]

/-- C10 counterexample: a declared continuous parameter with coincident
bounds `(1, 1)` that is absent from the specification makes encode raise
`ZeroDivisionError` — encode can fail although the parameter is absent and
no present value is invalid. -/
theorem encode_absent_param_fails_cex :
    ([] : Spec).lookup "a" = none ∧
    encode 1 [("a", ⟨1, true⟩, ⟨1, true⟩)] [] [] = .error (.zeroDivision "a") := by
  refine ⟨rfl, ?_⟩
  norm_num [encode, exceptMap, encodeContParam, List.lookup]

/-- C5 (amended): over a search space whose continuous bounds are
non-degenerate (min strictly below max), whose categorical choice lists
are nonempty, and whose parameter names are distinct, decode after encode
recovers every present categorical value exactly and every present
continuous value up to the rounding tolerance: exactly for float bounds,
and within 1/2 — half the integer step implied by normalization — for
integer bounds, with no ambiguity warning logged. -/
theorem encode_decode_roundtrip (dims : ℕ) (bounds : Bounds) (cats : CatDims)
    (spec : Spec)
    (hnodup : ((bounds.map Prod.fst) ++ (cats.map Prod.fst)).Nodup)
    (hb : ∀ b ∈ bounds, b.2.1.val < b.2.2.val ∧
      ∀ v, spec.lookup b.1 = some v →
        ∃ q, v = .num q ∧ b.2.1.val ≤ q.val ∧ q.val ≤ b.2.2.val)
    (hc : ∀ c ∈ cats, c.2 ≠ [] ∧
      ∀ v, spec.lookup c.1 = some v → ∃ s, v = .str s ∧ s ∈ c.2) :
    ∃ vec out, encode dims bounds cats spec = .ok vec ∧
      decode bounds cats vec = .ok (out, []) ∧
      (∀ b ∈ bounds, ∀ q, spec.lookup b.1 = some (.num q) →
        ∃ w, out.lookup b.1 = some (.num w) ∧
          (if b.2.1.isInt && b.2.2.isInt then |w - q.val| ≤ 1/2 else w = q.val)) ∧
      (∀ c ∈ cats, ∀ s, spec.lookup c.1 = some (.str s) →
        out.lookup c.1 = some (.str s)) := by
  have h1 : ∀ b ∈ bounds, contOk spec b.1 b.2.1 b.2.2 := by
    intro b hbmem
    obtain ⟨hlt, hval⟩ := hb b hbmem
    have hne : b.2.2.val - b.2.1.val ≠ 0 := sub_ne_zero.mpr (ne_of_gt hlt)
    simp only [contOk]
    cases hl : spec.lookup b.1 with
    | none => exact hne
    | some v =>
      obtain ⟨q, rfl, hq1, hq2⟩ := hval v hl
      exact ⟨⟨hq1, hq2⟩, hne⟩
  have h2 : ∀ c ∈ cats, catOk spec c.1 c.2 := by
    intro c hcmem
    obtain ⟨hcne, hval⟩ := hc c hcmem
    simp only [catOk]
    cases hl : spec.lookup c.1 with
    | none => exact hcne
    | some v =>
      obtain ⟨s, rfl, hs⟩ := hval v hl
      exact hs
  have henc := encode_eq_of_ok dims bounds cats spec h1 h2
  rw [List.append_assoc] at henc
  have hlen1 : (bounds.map (fun b => contValOf spec b.1 b.2.1 b.2.2)).length =
      bounds.length := List.length_map _ _
  have hdec : decode bounds cats
      (bounds.map (fun b => contValOf spec b.1 b.2.1 b.2.2) ++
        ((cats.map (fun c => catBlockOf spec c.2 c.1)).flatten ++
          List.replicate (dims - requiredDims bounds cats) 0)) =
      .ok ((bounds.map (fun b =>
          (b.1, DecodedVal.num
            (decodeContVal (contValOf spec b.1 b.2.1 b.2.2) b.2.1 b.2.2)))) ++
        (cats.map (fun c => (c.1, DecodedVal.str (decodedChoiceOf spec c.2 c.1)))),
        []) := by
    simp only [decode]
    rw [List.take_left' hlen1, List.drop_left' hlen1]
    rw [decodeCats_encode spec cats _ h2]
    rw [decodeConts_map bounds _]
  refine ⟨_, _, henc, hdec, ?_, ?_⟩
  · intro b hbmem q hq
    have hcontlookup := lookup_map_self Prod.fst
      (fun b => DecodedVal.num
        (decodeContVal (contValOf spec b.1 b.2.1 b.2.2) b.2.1 b.2.2))
      bounds b hbmem (List.nodup_append.mp hnodup).1
    have happ := lookup_append_some _
      (cats.map (fun c => (c.1, DecodedVal.str (decodedChoiceOf spec c.2 c.1))))
      b.1 _ hcontlookup
    refine ⟨decodeContVal (contValOf spec b.1 b.2.1 b.2.2) b.2.1 b.2.2, happ, ?_⟩
    obtain ⟨hlt, _⟩ := hb b hbmem
    have hne : b.2.2.val - b.2.1.val ≠ 0 := sub_ne_zero.mpr (ne_of_gt hlt)
    have hcv : contValOf spec b.1 b.2.1 b.2.2 =
        (q.val - b.2.1.val) / (b.2.2.val - b.2.1.val) := by
      simp [contValOf, hq]
    have hval : contValOf spec b.1 b.2.1 b.2.2 * (b.2.2.val - b.2.1.val) + b.2.1.val
        = q.val := by
      rw [hcv]
      field_simp
    by_cases hint : (b.2.1.isInt && b.2.2.isInt) = true
    · rw [if_pos hint]
      simp only [decodeContVal, hint, if_true]
      rw [hval]
      exact pyRound_close q.val
    · rw [if_neg hint]
      simp only [decodeContVal, hint]
      simpa using hval
  · intro c hcmem s hs
    have hcatlookup := lookup_map_self Prod.fst
      (fun c => DecodedVal.str (decodedChoiceOf spec c.2 c.1))
      cats c hcmem (List.nodup_append.mp hnodup).2.1
    have hnotin : c.1 ∉ bounds.map Prod.fst := by
      have hdisj := (List.nodup_append.mp hnodup).2.2
      intro hin
      exact hdisj hin (List.mem_map_of_mem Prod.fst hcmem)
    have hfirstnone : (bounds.map (fun b =>
        (b.1, DecodedVal.num
          (decodeContVal (contValOf spec b.1 b.2.1 b.2.2) b.2.1 b.2.2)))).lookup c.1 =
        none := by
      apply lookup_none_of_not_mem_keys
      simpa [List.map_map, Function.comp] using hnotin
    rw [lookup_append_none _ _ _ hfirstnone, hcatlookup]
    obtain ⟨_, hval⟩ := hc c hcmem
    obtain ⟨s2, hs2eq, hs2⟩ := hval _ hs
    injection hs2eq with h3
    subst h3
    simp [decodedChoiceOf, hs, hs2]

/-- Witness for C5: a complete specification over an integer-bounded
continuous parameter and one categorical parameter round-trips: the
integer 5 and the choice `gated` are recovered exactly. -/
theorem encode_decode_roundtrip_witness :
    encode 6 rtBounds sampleCats rtSpec = .ok [3/10, 0, 1, 0, 0, 0] ∧
    decode rtBounds sampleCats [3/10, 0, 1, 0, 0, 0] =
      .ok ([("num_layers", .num 5), ("ffn_type", .str "gated")], []) ∧
    ∃ w, ([("num_layers", DecodedVal.num 5), ("ffn_type", DecodedVal.str "gated")] :
        List (String × DecodedVal)).lookup "num_layers" = some (.num w) ∧
      |w - (5:ℚ)| ≤ 1/2 := by
  have hnodup : ((rtBounds.map Prod.fst) ++ (sampleCats.map Prod.fst)).Nodup := by
    simp [rtBounds, sampleCats]
  have hb : ∀ b ∈ rtBounds, b.2.1.val < b.2.2.val ∧
      ∀ v, rtSpec.lookup b.1 = some v →
        ∃ q, v = .num q ∧ b.2.1.val ≤ q.val ∧ q.val ≤ b.2.2.val := by
    intro b hbmem
    simp only [rtBounds, List.mem_singleton] at hbmem
    subst hbmem
    refine ⟨by norm_num, ?_⟩
    intro v hv
    have hcomp : rtSpec.lookup "num_layers" = some (.num ⟨5, true⟩) := rfl
    rw [hcomp] at hv
    injection hv with hv2
    exact ⟨⟨5, true⟩, hv2.symm, by norm_num, by norm_num⟩
  have hc : ∀ c ∈ sampleCats, c.2 ≠ [] ∧
      ∀ v, rtSpec.lookup c.1 = some v → ∃ s, v = .str s ∧ s ∈ c.2 := by
    intro c hcmem
    simp only [sampleCats, List.mem_singleton] at hcmem
    subst hcmem
    refine ⟨by simp, ?_⟩
    intro v hv
    have hcomp : rtSpec.lookup "ffn_type" = some (.str "gated") := rfl
    rw [hcomp] at hv
    injection hv with hv2
    exact ⟨"gated", hv2.symm, by simp⟩
  obtain ⟨vec, out, henc, hdec, hcont, hcat⟩ :=
    encode_decode_roundtrip 6 rtBounds sampleCats rtSpec hnodup hb hc
  have hvec : vec = [3/10, 0, 1, 0, 0, 0] := by
    have hcomp : encode 6 rtBounds sampleCats rtSpec = .ok [3/10, 0, 1, 0, 0, 0] := by
      have hl0 : rtSpec.lookup "num_layers" = some (.num ⟨5, true⟩) := rfl
      have hl1 : rtSpec.lookup "ffn_type" = some (.str "gated") := rfl
      have hidx : List.indexOf "gated" ["vanilla", "gated", "expert"] = 1 := by decide
      norm_num [encode, exceptMap, encodeContParam, encodeCatParam, rtBounds,
        sampleCats, hl0, hl1, hidx, requiredDims, oneHot, List.replicate_succ,
        List.set_cons_succ, List.set_cons_zero]
    have := hcomp.symm.trans henc
    injection this with h2
    exact h2.symm
  subst hvec
  have hout : out = [("num_layers", .num 5), ("ffn_type", .str "gated")] := by
    have hcomp : decode rtBounds sampleCats [3/10, 0, 1, 0, 0, 0] =
        .ok ([("num_layers", .num 5), ("ffn_type", .str "gated")], []) := by
      norm_num [decode, decodeConts, decodeCats, decodeCatBlock, decodeContVal,
        rtBounds, sampleCats, strongCount, List.filter_cons, argmaxIdx, listMax,
        pyRound, Int.floor_intCast]
    have := hcomp.symm.trans hdec
    injection this with h2
    have h3 := congrArg Prod.fst h2
    simpa using h3.symm
  subst hout
  refine ⟨henc, hdec, ?_⟩
  obtain ⟨w, hw, hwb⟩ := hcont ("num_layers", ⟨2, true⟩, ⟨12, true⟩)
    (by simp [rtBounds]) ⟨5, true⟩ rfl
  refine ⟨w, hw, ?_⟩
  simpa using hwb

/-- C5 counterexample: a continuous parameter declared with coincident
bounds `(1, 1)` and a present value 1 lying within those bounds makes
encode raise `ZeroDivisionError`, so decode-after-encode recovers
nothing. -/
theorem encode_decode_roundtrip_cex :
    ((1:ℚ) ≤ 1 ∧ (1:ℚ) ≤ 1) ∧
    encode 1 [("a", ⟨1, true⟩, ⟨1, true⟩)] [] [("a", .num ⟨1, true⟩)] =
      .error (.zeroDivision "a") := by
  refine ⟨⟨le_refl 1, le_refl 1⟩, ?_⟩
  norm_num [encode, exceptMap, encodeContParam, List.lookup]

/-- Witness for C9: scheduling a fresh id and letting the task complete
successfully yields status `completed` with the stored result. -/
theorem schedule_experiment_lifecycle_witness :
    ([] : ExpMap).lookup "x" = none ∧
    getExperimentStatus
      (runExperiment [("x", ⟨.scheduled, none, [], none, none⟩)] "x" "t0"
        (.ok sampleResults)) "x" =
      .ok ⟨.completed, some "t0", [], some sampleResults, none⟩ := by
  obtain ⟨m2, hok, hlook, hcomp, hfail⟩ :=
    (schedule_experiment_lifecycle [] "x" "t0" (.ok sampleResults)).2 rfl
  have h2 : (Except.ok m2 : Except String ExpMap) =
      .ok [("x", ⟨.scheduled, none, [], none, none⟩)] := by
    rw [← hok]; rfl
  injection h2 with h3
  rw [h3] at hcomp
  exact ⟨rfl, hcomp sampleResults rfl⟩

end Neuromosaic
